import Mathlib

/-!
# LSM-tree key/value store (`LSM-tree/main.go`)

A shallow embedding of the Go program: the write buffer (`MemTable`), the
file-backed segment (`SSTable`) and the engine (`LSMTree`).

* A Go `string` is a sequence of bytes: `Str` is a list of numbers, each
  byte a number below 256.
* The file system is an explicit state `FS`, a map from file name to file
  content, passed to and returned by the operations that touch files.
* The Go standard library functions the program calls (`sort.Strings`,
  `sort.SearchStrings`, `strings.Split`, `strings.TrimSpace`,
  `bufio.Scanner`, `bufio.Writer`, `bufio.Reader.ReadString`,
  `strconv.Itoa`) are modelled after their documented behaviour.
* A run-time panic (index out of range) is the result `none` of
  `SSTable.Get` and `LSMTree.Get`.
-/

namespace LSM

/-! ## Strings -/

/-- A Go string: a sequence of bytes. -/
abbrev Str := List Nat

/-- The separator byte `:`. -/
def colon : Nat := 58

/-- The line terminator byte `\n`. -/
def newline : Nat := 10

/-- The carriage return byte `\r`. -/
def carriageReturn : Nat := 13

/-- Go string comparison `a < b`: byte-wise lexicographic order. -/
def strLess : Str → Str → Bool
  | [], [] => false
  | [], _ :: _ => true
  | _ :: _, [] => false
  | a :: as, b :: bs =>
    if a < b then true else if b < a then false else strLess as bs

/-- Insertion of one string into an ascending list, before the first
element that is not smaller. -/
def insertSorted (x : Str) : List Str → List Str
  | [] => [x]
  | y :: ys => if strLess y x then y :: insertSorted x ys else x :: y :: ys

/-- Model of `sort.Strings`: the list sorted in increasing order. -/
def sortStrings : List Str → List Str
  | [] => []
  | x :: xs => insertSorted x (sortStrings xs)

/-- The loop of `sort.Search(n, f)`: `i, j := lo, hi; for i < j { h := (i+j)/2;
if !f(h) { i = h+1 } else { j = h } }; return i`, with `f(h)` the test
`a[h] >= x` of `sort.SearchStrings`.  Each round shrinks `j - i`, so `j - i`
rounds are enough; `fuel` bounds the number of rounds. -/
def searchLoop (a : List Str) (x : Str) : Nat → Nat → Nat → Nat
  | 0, i, _ => i
  | fuel + 1, i, j =>
    if i < j then
      let h := (i + j) / 2
      if strLess (a.getD h []) x then searchLoop a x fuel (h + 1) j
      else searchLoop a x fuel i h
    else i

/-- Model of `sort.SearchStrings(a, x)`: binary search for the smallest index
`i` with `a[i] >= x` (the result on a list that is not sorted is whatever the
search loop yields). -/
def SearchStrings (a : List Str) (x : Str) : Nat :=
  searchLoop a x a.length 0 a.length

/-- Model of `strings.Split(s, sep)` for a one-byte separator: the pieces of
`s` between the occurrences of `sep`; never the empty list. -/
def Split (sep : Nat) : Str → List Str
  | [] => [[]]
  | c :: cs =>
    if c = sep then [] :: Split sep cs
    else match Split sep cs with
      | [] => [[c]]
      | p :: ps => (c :: p) :: ps

/-! ## `strings.TrimSpace` and UTF-8 -/

/-- The rune `utf8.RuneError`, U+FFFD. -/
def RuneError : Nat := 0xFFFD

/-- Model of `unicode.IsSpace`: the Unicode White_Space property. -/
def IsSpace (r : Nat) : Bool :=
  (0x09 ≤ r && r ≤ 0x0D) || r == 0x20 || r == 0x85 || r == 0xA0 || r == 0x1680 ||
  (0x2000 ≤ r && r ≤ 0x200A) || r == 0x2028 || r == 0x2029 || r == 0x202F ||
  r == 0x205F || r == 0x3000

/-- The table `first` of package `utf8` for a lead byte at or above 0x80:
the length of the encoding and the accepted range of the second byte, or
`none` for a byte that starts no encoding. -/
def leadInfo (b : Nat) : Option (Nat × Nat × Nat) :=
  if b < 0xC2 then none
  else if b ≤ 0xDF then some (2, 0x80, 0xBF)
  else if b = 0xE0 then some (3, 0xA0, 0xBF)
  else if b ≤ 0xEC then some (3, 0x80, 0xBF)
  else if b = 0xED then some (3, 0x80, 0x9F)
  else if b ≤ 0xEF then some (3, 0x80, 0xBF)
  else if b = 0xF0 then some (4, 0x90, 0xBF)
  else if b ≤ 0xF3 then some (4, 0x80, 0xBF)
  else if b = 0xF4 then some (4, 0x80, 0x8F)
  else none

/-- Model of `utf8.DecodeRuneInString`: the first rune of `s` and the number of
bytes of its encoding; `(RuneError, 0)` for the empty string and
`(RuneError, 1)` for an invalid encoding. -/
def DecodeRune : Str → Nat × Nat
  | [] => (RuneError, 0)
  | s0 :: rest =>
    if s0 < 0x80 then (s0, 1)
    else match leadInfo s0 with
      | none => (RuneError, 1)
      | some (sz, lo, hi) =>
        if rest.length + 1 < sz then (RuneError, 1)
        else match rest with
          | [] => (RuneError, 1)
          | s1 :: rest1 =>
            if s1 < lo ∨ hi < s1 then (RuneError, 1)
            else if sz ≤ 2 then ((s0 % 32) * 64 + s1 % 64, 2)
            else match rest1 with
              | [] => (RuneError, 1)
              | s2 :: rest2 =>
                if s2 < 0x80 ∨ 0xBF < s2 then (RuneError, 1)
                else if sz ≤ 3 then ((s0 % 16) * 4096 + (s1 % 64) * 64 + s2 % 64, 3)
                else match rest2 with
                  | [] => (RuneError, 1)
                  | s3 :: _ =>
                    if s3 < 0x80 ∨ 0xBF < s3 then (RuneError, 1)
                    else ((s0 % 8) * 262144 + (s1 % 64) * 4096 + (s2 % 64) * 64 + s3 % 64, 4)

/-- Model of `utf8.RuneStart`: the byte is not a continuation byte. -/
def RuneStart (b : Nat) : Bool := !(0x80 ≤ b && b ≤ 0xBF)

/-- The backward scan of `utf8.DecodeLastRuneInString` for a string whose
last byte is at or above 0x80: the loop
`for start--; start >= lim; start-- { if RuneStart(s[start]) { break } }`
with `start = end - 1` and `lim = max(end - 4, 0)` visits the positions
`end - 2`, `end - 3` and `end - 4` that exist; when none of them is a rune
start it leaves `start = lim - 1`, reset to 0 when negative. -/
def lastRuneStart (s : Str) : Nat :=
  let e := s.length
  if 2 ≤ e ∧ RuneStart (s.getD (e - 2) 0) then e - 2
  else if 3 ≤ e ∧ RuneStart (s.getD (e - 3) 0) then e - 3
  else if 4 ≤ e ∧ RuneStart (s.getD (e - 4) 0) then e - 4
  else if 5 ≤ e then e - 5
  else 0

/-- Model of `utf8.DecodeLastRuneInString`: the last rune of `s` and the
number of bytes of its encoding. -/
def DecodeLastRune (s : Str) : Nat × Nat :=
  match s.getLast? with
  | none => (RuneError, 0)
  | some b =>
    if b < 0x80 then (b, 1)
    else
      let start := lastRuneStart s
      let d := DecodeRune (s.drop start)
      if start + d.2 = s.length then d else (RuneError, 1)

/-- The loop of `strings.TrimLeftFunc(s, unicode.IsSpace)`: ranging over the
runes of `s`, the suffix of `s` that starts at the first rune that is not
white space, or the empty string when there is none. -/
def trimLeftLoop : Nat → Str → Str
  | 0, s => s
  | _ + 1, [] => []
  | fuel + 1, c :: cs =>
    let d := DecodeRune (c :: cs)
    if IsSpace d.1 then trimLeftLoop fuel ((c :: cs).drop d.2) else c :: cs

/-- Model of `strings.TrimLeftFunc(s, unicode.IsSpace)`. -/
def TrimLeftFunc (s : Str) : Str := trimLeftLoop (s.length + 1) s

/-- The loop of `lastIndexFunc(s, unicode.IsSpace, false)`:
`for i := len(s); i > 0; { r, size := DecodeLastRuneInString(s[0:i]); i -= size;
if !IsSpace(r) { return i } }; return -1`, with `none` for -1. -/
def lastIndexLoop (s : Str) : Nat → Nat → Option Nat
  | 0, _ => none
  | fuel + 1, i =>
    if 0 < i then
      let d := DecodeLastRune (s.take i)
      if IsSpace d.1 then lastIndexLoop s fuel (i - d.2) else some (i - d.2)
    else none

/-- Model of `strings.TrimRightFunc(s, unicode.IsSpace)`. -/
def TrimRightFunc (s : Str) : Str :=
  match lastIndexLoop s (s.length + 1) s.length with
  | some i =>
    if 0x80 ≤ s.getD i 0 then s.take (i + (DecodeRune (s.drop i)).2)
    else s.take (i + 1)
  | none => []

/-- Model of `strings.TrimSpace`: `s` with all leading and trailing white
space removed, as defined by Unicode. -/
def TrimSpace (s : Str) : Str := TrimRightFunc (TrimLeftFunc s)

/-! ## Reading: `bufio.Scanner` and `bufio.Reader` -/

/-- The constant `bufio.MaxScanTokenSize`: the size of the largest buffer a
`bufio.Scanner` allocates. -/
def MaxScanTokenSize : Nat := 64 * 1024

/-- The errors of the program. -/
inductive Error where
  | create    -- `os.Create` failed
  | write     -- a write to the file failed
  | fileOpen  -- `os.Open` failed
  | tooLong   -- `bufio.ErrTooLong`
  deriving DecidableEq, Repr

/-- The raw lines of a file: the runs of bytes between line terminators
`\n`; a final run that is not terminated is a line when it is not empty. -/
def rawLines (content : Str) : List Str :=
  let ps := Split newline content
  if ps.getLast? = some [] then ps.dropLast else ps

/-- The function `dropCR` of package `bufio`: strips one final `\r`. -/
def dropCR (line : Str) : Str :=
  if line.getLast? = some carriageReturn then line.dropLast else line

/-- Model of a `bufio.Scanner` with the split function `bufio.ScanLines` run to
the end of its input: the tokens `scanner.Text()` yields, in order, and the
value of `scanner.Err()`.  A raw line of `MaxScanTokenSize` bytes or more
does not fit the buffer: the scan stops there with `bufio.ErrTooLong`. -/
def scanLines : List Str → List Str × Option Error
  | [] => ([], none)
  | l :: ls =>
    if MaxScanTokenSize ≤ l.length then ([], some Error.tooLong)
    else ((dropCR l) :: (scanLines ls).1, (scanLines ls).2)

/-- Model of `reader.ReadString('\n')` on a fresh reader: the bytes up to and
including the first `\n`, or `none` (the error `io.EOF`) when the input ends
before a `\n`. -/
def ReadString : Str → Option Str
  | [] => none
  | c :: cs =>
    if c = newline then some [c]
    else match ReadString cs with
      | none => none
      | some l => some (c :: l)

/-! ## The file system and writing: `os.File` and `bufio.Writer` -/

/-- The file system: the content of each file that exists. -/
def FS := Str → Option Str

/-- The file system after file `name` has been given the content `c`. -/
def FS.put (fs : FS) (name : Str) (c : Str) : FS :=
  fun n => if n = name then some c else fs n

/-- What the operating system does with the calls of one `MemTable.Flush`:
whether `os.Create` succeeds, and how many bytes the new file accepts before
a write to it fails (`none`: every write succeeds). -/
structure WriteEnv where
  createOk : Bool
  room : Option Nat
  deriving DecidableEq, Repr

/-- An environment in which creating the file and every write succeed. -/
def WriteEnv.reliable (env : WriteEnv) : Prop :=
  env.createOk = true ∧ env.room = none

instance (env : WriteEnv) : Decidable env.reliable := by
  unfold WriteEnv.reliable; infer_instance

/-- A file open for writing: what has reached it, and the bytes it still
accepts. -/
structure File where
  content : Str
  room : Option Nat
  deriving DecidableEq, Repr

/-- Model of `file.Write(p)`: the file after the call, the number of bytes
written and whether the call returned an error.  A write that does not fit
writes the bytes that fit and fails. -/
def File.Write (f : File) (p : Str) : File × Nat × Bool :=
  match f.room with
  | none => ({ f with content := f.content ++ p }, p.length, false)
  | some r =>
    if p.length ≤ r then
      ({ content := f.content ++ p, room := some (r - p.length) }, p.length, false)
    else ({ content := f.content ++ p.take r, room := some 0 }, r, true)

/-- The default buffer size of a `bufio.Writer`. -/
def defaultBufSize : Nat := 4096

/-- A `bufio.Writer`: the buffered bytes `b.buf[0:b.n]`, the sticky error
`b.err` and the file `b.wr` under it. -/
structure Writer where
  buf : Str
  err : Bool
  wr : File
  deriving DecidableEq, Repr

/-- Model of `bufio.NewWriter(file)`. -/
def NewWriter (file : File) : Writer := { buf := [], err := false, wr := file }

/-- Model of `b.Available()`. -/
def Writer.Available (b : Writer) : Nat := defaultBufSize - b.buf.length

/-- Model of `b.Flush()`: writes the buffered bytes to the file; returns the
writer and whether the call returned an error. -/
def Writer.Flush (b : Writer) : Writer × Bool :=
  if b.err then (b, true)
  else if b.buf.length = 0 then (b, false)
  else
    let r := b.wr.Write b.buf
    if r.2.2 ∨ r.2.1 < b.buf.length then
      ({ buf := b.buf.drop r.2.1, err := true, wr := r.1 }, true)
    else ({ buf := [], err := false, wr := r.1 }, false)

/-- The loop of `b.WriteString(s)`:
`for len(s) > b.Available() && b.err == nil`, with a write that finds the
buffer empty passed to the file directly (an `os.File` has `WriteString`)
and any other copied into the buffer, which is then flushed.  Returns the
writer and what is left of `s`. -/
def writeStringLoop : Nat → Writer → Str → Writer × Str
  | 0, b, s => (b, s)
  | fuel + 1, b, s =>
    if b.Available < s.length ∧ b.err = false then
      if b.buf.length = 0 then
        let r := b.wr.Write s
        writeStringLoop fuel { b with err := r.2.2, wr := r.1 } (s.drop r.2.1)
      else
        let n := min b.Available s.length
        let b1 := ({ b with buf := b.buf ++ s.take n } : Writer).Flush.1
        writeStringLoop fuel b1 (s.drop n)
    else (b, s)

/-- Model of `b.WriteString(s)`: after the loop, an error so far is returned,
and otherwise the rest of `s` is copied into the free part of the buffer
(`copy(b.buf[b.n:], s)`).  Returns the writer and whether the call returned
an error.  The loop makes at most two rounds, so the fuel given is enough. -/
def Writer.WriteString (b : Writer) (s : Str) : Writer × Bool :=
  let r := writeStringLoop (s.length + 2) b s
  if r.1.err then (r.1, true)
  else ({ r.1 with buf := r.1.buf ++ r.2.take r.1.Available }, false)

/-! ## The write buffer: `MemTable` -/

/-- A Go `map[string]string` as the list of its entries; the value of a key is
that of the first entry with the key. -/
def lookupKey (key : Str) : List (Str × Str) → Option Str
  | [] => none
  | e :: rest => if e.1 = key then some e.2 else lookupKey key rest

/-- The type `MemTable`: an in-memory key-value store. -/
structure MemTable where
  data : List (Str × Str)
  deriving DecidableEq, Repr

/-- The function `NewMemTable`. -/
def NewMemTable : MemTable := { data := [] }

/-- The method `MemTable.Set`: `m.data[key] = value`. -/
def MemTable.Set (m : MemTable) (key value : Str) : MemTable :=
  { data := (key, value) :: m.data.filter (fun e => e.1 ≠ key) }

/-- The method `MemTable.Get`: `value, ok := m.data[key]`, the value being the
empty string when the key is absent. -/
def MemTable.Get (m : MemTable) (key : Str) : Str × Bool :=
  match lookupKey key m.data with
  | some value => (value, true)
  | none => ([], false)

/-- The keys of the map, each once: what `for key := range m.data` visits, in
some order. -/
def MemTable.keys (m : MemTable) : List Str := (m.data.map Prod.fst).dedup

/-- The line `fmt.Sprintf("%s:%s\n", key, value)`. -/
def entryLine (key value : Str) : Str := key ++ [colon] ++ value ++ [newline]

/-- The loop of `MemTable.Flush` over the sorted keys: each entry is written
with `writer.WriteString`, and the first error ends the loop.  Returns the
writer and whether an error was returned. -/
def writeEntries (m : MemTable) : List Str → Writer → Writer × Bool
  | [], w => (w, false)
  | key :: rest, w =>
    let value := (m.Get key).1
    let r := w.WriteString (entryLine key value)
    if r.2 then (r.1, true) else writeEntries m rest r.1

/-- The method `MemTable.Flush`: creates the file, writes the entries in the
order of their sorted keys through a `bufio.Writer`, and flushes the writer
without looking at the result of that last `writer.Flush()`.  Returns the
error (`none` for `nil`) and the file system after the call. -/
def MemTable.Flush (m : MemTable) (filename : Str) (env : WriteEnv) (fs : FS) :
    Option Error × FS :=
  if env.createOk = false then (some Error.create, fs)
  else
    let writer := NewWriter { content := [], room := env.room }
    let keys := sortStrings m.keys
    let r := writeEntries m keys writer
    if r.2 then (some Error.write, fs.put filename r.1.wr.content)
    else (none, fs.put filename r.1.Flush.1.wr.content)

/-! ## The segment: `SSTable` -/

/-- The type `SSTable`: a file with an in-memory index of its keys and their
offsets. -/
structure SSTable where
  filename : Str
  index : List Str
  offsets : List Nat
  deriving DecidableEq, Repr

/-- The loop of `SSTable.buildIndex` over the lines the scanner yields: a line
that splits into two parts or more adds its first part and the current
offset to the index, and every line advances the offset by its length
plus one. -/
def indexLines (s : SSTable) : List Str → Nat → SSTable
  | [], _ => s
  | line :: rest, offset =>
    let parts := Split colon line
    let s1 : SSTable :=
      if 2 ≤ parts.length then
        { s with index := s.index ++ [parts.headD []], offsets := s.offsets ++ [offset] }
      else s
    indexLines s1 rest (offset + line.length + 1)

/-- The method `SSTable.buildIndex`: returns the table after the call and
`scanner.Err()`, or the error of `os.Open`. -/
def SSTable.buildIndex (s : SSTable) (fs : FS) : SSTable × Option Error :=
  match fs s.filename with
  | none => (s, some Error.fileOpen)
  | some content =>
    let sc := scanLines (rawLines content)
    (indexLines s sc.1 0, sc.2)

/-- The function `NewSSTable`. -/
def NewSSTable (filename : Str) (fs : FS) : Except Error SSTable :=
  let r := SSTable.buildIndex { filename := filename, index := [], offsets := [] } fs
  match r.2 with
  | some err => Except.error err
  | none => Except.ok r.1

/-- The method `SSTable.Get`.  The result `none` is a run-time panic: an index
out of range at `s.offsets[i]` or at `parts[1]`. -/
def SSTable.Get (s : SSTable) (fs : FS) (key : Str) : Option (Str × Bool) :=
  let i := SearchStrings s.index key
  if i < s.index.length ∧ s.index.getD i [] = key then
    match fs s.filename with
    | none => some ([], false)
    | some content =>
      match s.offsets.get? i with
      | none => none
      | some offset =>
        match ReadString (content.drop offset) with
        | none => some ([], false)
        | some line =>
          let parts := Split colon line
          if parts.headD [] = key then
            match parts.get? 1 with
            | none => none
            | some part => some (TrimSpace part, true)
          else some ([], false)
  else some ([], false)

/-! ## The engine: `LSMTree` -/

/-- The type `LSMTree`. -/
structure LSMTree where
  memTable : MemTable
  sstables : List SSTable
  deriving DecidableEq, Repr

/-- The function `NewLSMTree`. -/
def NewLSMTree : LSMTree := { memTable := NewMemTable, sstables := [] }

/-- The method `LSMTree.Set`. -/
def LSMTree.Set (l : LSMTree) (key value : Str) : LSMTree :=
  { l with memTable := l.memTable.Set key value }

/-- The loop of `LSMTree.Get` over the segments, the most recent first: the
first segment that has the key gives the value. -/
def searchSSTables (fs : FS) (key : Str) : List SSTable → Option (Str × Bool)
  | [] => some ([], false)
  | s :: older =>
    match s.Get fs key with
    | none => none
    | some (value, true) => some (value, true)
    | some (_, false) => searchSSTables fs key older

/-- The method `LSMTree.Get`: the buffer first, then the segments from the last
to the first. -/
def LSMTree.Get (l : LSMTree) (fs : FS) (key : Str) : Option (Str × Bool) :=
  match l.memTable.Get key with
  | (value, true) => some (value, true)
  | (_, false) => searchSSTables fs key l.sstables.reverse

/-- The digit loop of `strconv.Itoa` for a number that is not negative: the
decimal digits, the most significant first. -/
def digitsLoop : Nat → Nat → Str → Str
  | 0, _, acc => acc
  | fuel + 1, n, acc =>
    if n < 10 then (48 + n) :: acc
    else digitsLoop fuel (n / 10) ((48 + n % 10) :: acc)

/-- Model of `strconv.Itoa` on a number that is not negative. -/
def Itoa (n : Nat) : Str := digitsLoop (n + 1) n []

/-- The name `"sstable_" + strconv.Itoa(n) + ".txt"`. -/
def segmentName (n : Nat) : Str :=
  [115, 115, 116, 97, 98, 108, 101, 95] ++ Itoa n ++ [46, 116, 120, 116]

/-- The method `LSMTree.Flush`.  Returns the error (`none` for `nil`), the tree
and the file system after the call. -/
def LSMTree.Flush (l : LSMTree) (env : WriteEnv) (fs : FS) :
    Option Error × LSMTree × FS :=
  let filename := segmentName l.sstables.length
  match l.memTable.Flush filename env fs with
  | (some err, fs1) => (some err, l, fs1)
  | (none, fs1) =>
    match NewSSTable filename fs1 with
    | Except.error err => (some err, l, fs1)
    | Except.ok sstable =>
      (none, { memTable := NewMemTable, sstables := l.sstables ++ [sstable] }, fs1)

/-! ## Runs of the engine -/

/-- A call that changes the state of the engine or of the file system (a
`Get` changes neither). -/
inductive Op where
  | set (key value : Str)
  | flush (env : WriteEnv)

/-- The engine together with the file system it runs on. -/
structure State where
  tree : LSMTree
  fs : FS

/-- The state after one call. -/
def step (st : State) : Op → State
  | Op.set key value => { st with tree := st.tree.Set key value }
  | Op.flush env =>
    { tree := (st.tree.Flush env st.fs).2.1, fs := (st.tree.Flush env st.fs).2.2 }

/-- The state after a sequence of calls. -/
def run (st : State) (ops : List Op) : State := ops.foldl step st

/-- A state reached from `NewLSMTree`, on any initial file system, by `Set`,
`Get` and `Flush` calls. -/
def Reachable (st : State) : Prop :=
  ∃ (fs0 : FS) (ops : List Op), run { tree := NewLSMTree, fs := fs0 } ops = st

/-- An environment in which every call succeeds. -/
def okEnv : WriteEnv := { createOk := true, room := none }

/-- The empty file system. -/
def noFiles : FS := fun _ => none

/-! ## Vocabulary of the specification -/

/-- A list of strings in strictly ascending byte-wise order. -/
def Ascending (l : List Str) : Prop := l.Pairwise (fun a b => strLess a b = true)

instance (l : List Str) : Decidable (Ascending l) := by
  unfold Ascending; infer_instance

/-- The text of a file made of the given lines, each followed by `\n`. -/
def joinLines : List Str → Str
  | [] => []
  | l :: ls => l ++ newline :: joinLines ls

/-- The content that a complete `MemTable.Flush` gives the file: for each key
in ascending order, the line `key:value`. -/
def MemTable.serialize (m : MemTable) : Str :=
  joinLines ((sortStrings m.keys).map (fun k => k ++ colon :: (m.Get k).1))

/-- Every key and every value of the buffer satisfies a condition on keys and
a condition on values. -/
def MemTable.All (m : MemTable) (pk pv : Str → Prop) : Prop :=
  ∀ e ∈ m.data, pk e.1 ∧ pv e.2

/-- A writer without an error over a file that accepts every write. -/
def Writer.Sound (b : Writer) : Prop := b.err = false ∧ b.wr.room = none

/-- The byte offsets at which the lines of a text begin, the first line
beginning at `offset`: each line takes its length and one byte more. -/
def lineOffsets : Nat → List Str → List Nat
  | _, [] => []
  | offset, l :: ls => offset :: lineOffsets (offset + l.length + 1) ls

/-- The entries of the buffer in the ascending order of their keys. -/
def MemTable.sortedEntries (m : MemTable) : List (Str × Str) :=
  (sortStrings m.keys).map (fun k => (k, (m.Get k).1))

/-- The line `key:value` of an entry, without its terminator. -/
def lineOf (e : Str × Str) : Str := e.1 ++ colon :: e.2

/-- A string without the separator `:` and without a line terminator. -/
def Plain (s : Str) : Prop := colon ∉ s ∧ newline ∉ s ∧ carriageReturn ∉ s

instance (s : Str) : Decidable (Plain s) := by
  unfold Plain; infer_instance

/-- A string without leading or trailing white space: `strings.TrimSpace`
leaves it as it is. -/
def Trimmed (s : Str) : Prop := TrimSpace s = s

instance (s : Str) : Decidable (Trimmed s) := by
  unfold Trimmed; infer_instance

/-- The keys of the `Set` calls of a sequence of calls. -/
def setKeys : List Op → List Str
  | [] => []
  | Op.set key _ :: ops => key :: setKeys ops
  | Op.flush _ :: ops => setKeys ops

/-- Every `Set` call of the sequence has a key that satisfies `pk` and a value
that satisfies `pv`. -/
def SetsAll (pk pv : Str → Prop) : List Op → Prop
  | [] => True
  | Op.set key value :: ops => pk key ∧ pv value ∧ SetsAll pk pv ops
  | Op.flush _ :: ops => SetsAll pk pv ops

/-- Every `Flush` call of the sequence, run from the state `st`, succeeds:
`LSMTree.Flush` returns `nil`. -/
def FlushesSucceed : State → List Op → Prop
  | _, [] => True
  | st, Op.set key value :: ops => FlushesSucceed (step st (Op.set key value)) ops
  | st, Op.flush env :: ops =>
    (st.tree.Flush env st.fs).1 = none ∧ FlushesSucceed (step st (Op.flush env)) ops

/-! ## The write buffer -/

theorem lookupKey_filter_ne (key : Str) (d : List (Str × Str)) (k : Str) (h : k ≠ key) :
    lookupKey k (d.filter (fun e => e.1 ≠ key)) = lookupKey k d := by
  induction d with
  | nil => rfl
  | cons e rest ih =>
    rw [List.filter_cons]
    by_cases he : e.1 = key
    · have hk : ¬ e.1 = k := by rw [he]; exact fun h1 => h h1.symm
      simp only [he, ne_eq, not_true_eq_false, decide_False, Bool.false_eq_true, if_false]
      rw [ih, lookupKey, if_neg hk]
    · simp only [he, ne_eq, not_false_eq_true, decide_True, if_true]
      by_cases hk : e.1 = k
      · simp [lookupKey, hk]
      · simp only [lookupKey, hk, if_false]
        exact ih

theorem MemTable.Get_Set_same (m : MemTable) (key value : Str) :
    (m.Set key value).Get key = (value, true) := by
  simp [MemTable.Set, MemTable.Get, lookupKey]

theorem MemTable.Get_Set_other (m : MemTable) (key value k : Str) (h : k ≠ key) :
    (m.Set key value).Get k = m.Get k := by
  have hk : ¬ key = k := fun h1 => h h1.symm
  simp only [MemTable.Set, MemTable.Get, lookupKey, hk, if_false, lookupKey_filter_ne key m.data k h]

theorem MemTable.Get_New (k : Str) : NewMemTable.Get k = ([], false) := rfl

theorem LSMTree.Get_after_Set (l : LSMTree) (fs : FS) (key value : Str) :
    (l.Set key value).Get fs key = some (value, true) := by
  simp [LSMTree.Set, LSMTree.Get, MemTable.Get_Set_same]

/-! ## The order of strings, sorting and binary search -/

theorem strLess_irrefl (a : Str) : strLess a a = false := by
  induction a with
  | nil => rfl
  | cons x xs ih => simp [strLess, ih]

theorem strLess_trans : ∀ (a b c : Str), strLess a b = true → strLess b c = true →
    strLess a c = true
  | [], [], _, h, _ => by simp [strLess] at h
  | [], _ :: _, [], _, h => by simp [strLess] at h
  | [], _ :: _, _ :: _, _, _ => by simp [strLess]
  | _ :: _, [], _, h, _ => by simp [strLess] at h
  | _ :: _, _ :: _, [], _, h => by simp [strLess] at h
  | x :: xs, y :: ys, z :: zs, h1, h2 => by
    simp only [strLess] at h1 h2 ⊢
    by_cases hxy : x < y
    · by_cases hyz : y < z
      · have : x < z := lt_trans hxy hyz
        simp [this]
      · simp only [hyz, if_false] at h2
        by_cases hzy : z < y
        · simp [hzy] at h2
        · have : y = z := by omega
          subst this
          simp [hxy]
    · simp only [hxy, if_false] at h1
      by_cases hyx : y < x
      · simp [hyx] at h1
      · simp only [hyx, if_false] at h1
        have hxy2 : x = y := by omega
        subst hxy2
        by_cases hxz : x < z
        · simp [hxz]
        · simp only [hxz, if_false] at h2 ⊢
          by_cases hzx : z < x
          · simp [hzx] at h2
          · simp only [hzx, if_false] at h2 ⊢
            exact strLess_trans xs ys zs h1 h2

theorem strLess_asymm : ∀ (a b : Str), strLess a b = true → strLess b a = false
  | [], [], h => by simp [strLess] at h
  | [], _ :: _, _ => by simp [strLess]
  | _ :: _, [], h => by simp [strLess] at h
  | x :: xs, y :: ys, h => by
    simp only [strLess] at h ⊢
    by_cases hxy : x < y
    · have : ¬ y < x := by omega
      simp [this, hxy]
    · simp only [hxy, if_false] at h
      by_cases hyx : y < x
      · simp [hyx] at h
      · simp only [hyx, if_false] at h ⊢
        simp only [hxy, if_false]
        exact strLess_asymm xs ys h

theorem strLess_total : ∀ (a b : Str), strLess a b = false → strLess b a = false → a = b
  | [], [], _, _ => rfl
  | [], _ :: _, h, _ => by simp [strLess] at h
  | _ :: _, [], _, h => by simp [strLess] at h
  | x :: xs, y :: ys, h1, h2 => by
    simp only [strLess] at h1 h2
    by_cases hxy : x < y
    · simp [hxy] at h1
    · by_cases hyx : y < x
      · simp [hyx] at h2
      · simp only [hxy, hyx, if_false] at h1 h2
        have : x = y := by omega
        subst this
        rw [strLess_total xs ys h1 h2]

theorem mem_insertSorted (x : Str) (l : List Str) (y : Str) :
    y ∈ insertSorted x l ↔ y = x ∨ y ∈ l := by
  induction l with
  | nil => simp [insertSorted]
  | cons z zs ih =>
    simp only [insertSorted]
    split
    · simp only [List.mem_cons, ih]
      tauto
    · simp only [List.mem_cons]

theorem mem_sortStrings (l : List Str) (y : Str) : y ∈ sortStrings l ↔ y ∈ l := by
  induction l with
  | nil => simp [sortStrings]
  | cons z zs ih => simp [sortStrings, mem_insertSorted, ih]

theorem ascending_insertSorted (x : Str) (l : List Str) (h : Ascending l) (hx : x ∉ l) :
    Ascending (insertSorted x l) := by
  induction l with
  | nil => simp [insertSorted, Ascending]
  | cons z zs ih =>
    have hz : ∀ b ∈ zs, strLess z b = true := (List.pairwise_cons.mp h).1
    have hzs : Ascending zs := (List.pairwise_cons.mp h).2
    have hxz : x ≠ z := fun e => hx (by simp [e])
    have hxzs : x ∉ zs := fun e => hx (by simp [e])
    simp only [insertSorted]
    by_cases hlt : strLess z x = true
    · simp only [hlt, if_true]
      refine List.pairwise_cons.mpr ⟨?_, ih hzs hxzs⟩
      intro b hb
      rcases (mem_insertSorted x zs b).mp hb with rfl | hb
      · exact hlt
      · exact hz b hb
    · simp only [hlt, if_false]
      have hxz2 : strLess x z = true := by
        by_contra hc
        exact hxz (strLess_total x z (by simpa using hc) (by simpa using hlt))
      refine List.pairwise_cons.mpr ⟨?_, h⟩
      intro b hb
      rcases List.mem_cons.mp hb with rfl | hb
      · exact hxz2
      · exact strLess_trans x z b hxz2 (hz b hb)

theorem ascending_sortStrings (l : List Str) (h : l.Nodup) : Ascending (sortStrings l) := by
  induction l with
  | nil => simp [sortStrings, Ascending]
  | cons z zs ih =>
    have hz : z ∉ zs := (List.nodup_cons.mp h).1
    exact ascending_insertSorted z _ (ih (List.nodup_cons.mp h).2)
      (fun e => hz ((mem_sortStrings zs z).mp e))

theorem Ascending.nodup {l : List Str} (h : Ascending l) : l.Nodup := by
  refine List.Pairwise.imp ?_ h
  intro a b hab e
  subst e
  rw [strLess_irrefl] at hab
  exact Bool.noConfusion hab

/-- Two strictly ascending lists with the same elements are equal. -/
theorem Ascending.ext : ∀ {l1 l2 : List Str}, Ascending l1 → Ascending l2 →
    (∀ x, x ∈ l1 ↔ x ∈ l2) → l1 = l2
  | [], [], _, _, _ => rfl
  | [], y :: ys, _, _, h => by simpa using (h y).mpr (by simp)
  | x :: xs, [], _, _, h => by simpa using (h x).mp (by simp)
  | x :: xs, y :: ys, h1, h2, h => by
    have hx := List.pairwise_cons.mp h1
    have hy := List.pairwise_cons.mp h2
    have hxy : x = y := by
      rcases List.mem_cons.mp ((h x).mp (by simp)) with e | hxin
      · exact e
      · rcases List.mem_cons.mp ((h y).mpr (by simp)) with e | hyin
        · exact e.symm
        · have a1 := hy.1 x hxin
          have a2 := hx.1 y hyin
          rw [strLess_asymm _ _ a1] at a2
          exact Bool.noConfusion a2
    subst hxy
    have hxs : x ∉ xs := fun e => by
      have := hx.1 x e
      rw [strLess_irrefl] at this
      exact Bool.noConfusion this
    have hys : x ∉ ys := fun e => by
      have := hy.1 x e
      rw [strLess_irrefl] at this
      exact Bool.noConfusion this
    have : xs = ys := by
      refine Ascending.ext hx.2 hy.2 (fun z => ⟨fun hz => ?_, fun hz => ?_⟩)
      · rcases List.mem_cons.mp ((h z).mp (List.mem_cons_of_mem _ hz)) with e | hin
        · exact absurd (e ▸ hz) hxs
        · exact hin
      · rcases List.mem_cons.mp ((h z).mpr (List.mem_cons_of_mem _ hz)) with e | hin
        · exact absurd (e ▸ hz) hys
        · exact hin
    rw [this]

theorem Ascending.getD_lt {l : List Str} (h : Ascending l) {i j : Nat} (hij : i < j)
    (hj : j < l.length) : strLess (l.getD i []) (l.getD j []) = true := by
  have hi : i < l.length := lt_trans hij hj
  rw [List.getD_eq_getElem l [] hi, List.getD_eq_getElem l [] hj]
  exact (List.pairwise_iff_getElem.mp h) i j hi hj hij

theorem searchLoop_found (a : List Str) (x : Str) (p : Nat)
    (hlt : ∀ h, h < a.length → (strLess (a.getD h []) x = true ↔ h < p)) :
    ∀ (fuel i j : Nat), i ≤ p → p ≤ j → j ≤ a.length → j - i ≤ fuel →
      searchLoop a x fuel i j = p := by
  intro fuel
  induction fuel with
  | zero =>
    intro i j hi hj _ hf
    simp only [searchLoop]
    omega
  | succ n ih =>
    intro i j hi hj hja hf
    simp only [searchLoop]
    by_cases hij : i < j
    · simp only [hij, if_true]
      have hh : (i + j) / 2 < a.length := by omega
      by_cases hs : strLess (a.getD ((i + j) / 2) []) x = true
      · simp only [hs, if_true]
        have := (hlt _ hh).mp hs
        exact ih _ _ (by omega) hj hja (by omega)
      · simp only [hs, if_false]
        have : ¬ (i + j) / 2 < p := fun e => hs ((hlt _ hh).mpr e)
        exact ih _ _ hi (by omega) (by omega) (by omega)
    · simp only [hij, if_false]
      omega

/-- Binary search over a strictly ascending index finds every key of the
index at its position. -/
theorem SearchStrings_found (a : List Str) (h : Ascending a) (p : Nat) (hp : p < a.length) :
    SearchStrings a (a.getD p []) = p := by
  refine searchLoop_found a _ p ?_ a.length 0 a.length (Nat.zero_le _) (le_of_lt hp)
    (le_refl _) (by omega)
  intro i hi
  constructor
  · intro hs
    by_contra hc
    rcases Nat.lt_or_eq_of_le (Nat.le_of_not_lt hc) with hlt | heq
    · have := h.getD_lt hlt hi
      rw [strLess_asymm _ _ this] at hs
      exact Bool.noConfusion hs
    · rw [← heq, strLess_irrefl] at hs
      exact Bool.noConfusion hs
  · intro hip
    exact h.getD_lt hip hp

/-! ## Splitting, lines and reading -/

theorem Split_ne_nil (sep : Nat) (s : Str) : Split sep s ≠ [] := by
  induction s with
  | nil => simp [Split]
  | cons c cs ih =>
    simp only [Split]
    split
    · simp
    · split <;> simp

theorem Split_of_not_mem (sep : Nat) (s : Str) (h : sep ∉ s) : Split sep s = [s] := by
  induction s with
  | nil => rfl
  | cons c cs ih =>
    have hc : ¬ c = sep := fun e => h (by simp [e])
    have hcs : sep ∉ cs := fun e => h (by simp [e])
    simp [Split, hc, ih hcs]

theorem Split_append_sep (sep : Nat) (a b : Str) (h : sep ∉ a) :
    Split sep (a ++ sep :: b) = a :: Split sep b := by
  induction a with
  | nil => simp [Split]
  | cons c cs ih =>
    have hc : ¬ c = sep := fun e => h (by simp [e])
    have hcs : sep ∉ cs := fun e => h (by simp [e])
    simp [Split, hc, ih hcs]

theorem Split_joinLines (ls : List Str) (h : ∀ l ∈ ls, newline ∉ l) :
    Split newline (joinLines ls) = ls ++ [[]] := by
  induction ls with
  | nil => rfl
  | cons l ls ih =>
    have hl : newline ∉ l := h l (by simp)
    have hls : ∀ x ∈ ls, newline ∉ x := fun x hx => h x (by simp [hx])
    simp [joinLines, Split_append_sep newline l _ hl, ih hls]

theorem rawLines_joinLines (ls : List Str) (h : ∀ l ∈ ls, newline ∉ l) :
    rawLines (joinLines ls) = ls := by
  simp [rawLines, Split_joinLines ls h]

theorem ReadString_append (l rest : Str) (h : newline ∉ l) :
    ReadString (l ++ newline :: rest) = some (l ++ [newline]) := by
  induction l with
  | nil => simp [ReadString]
  | cons c cs ih =>
    have hc : ¬ c = newline := fun e => h (by simp [e])
    have hcs : newline ∉ cs := fun e => h (by simp [e])
    simp [ReadString, hc, ih hcs]

/-- The offset of line `i` in the text of a file: the sum of the lengths, plus
one, of the lines before it. -/
theorem drop_joinLines (pre : List Str) (l : Str) (post : List Str) :
    (joinLines (pre ++ l :: post)).drop ((pre.map (fun x => x.length + 1)).sum) =
      l ++ newline :: joinLines post := by
  induction pre with
  | nil => simp [joinLines]
  | cons p ps ih =>
    have e1 : joinLines (p :: ps ++ l :: post) =
        (p ++ [newline]) ++ joinLines (ps ++ l :: post) := by
      simp [joinLines]
    have e2 : ((p :: ps).map (fun x => x.length + 1)).sum =
        (p ++ [newline]).length + (ps.map (fun x => x.length + 1)).sum := by
      simp
    rw [e1, e2, List.drop_append]
    exact ih

/-! ## UTF-8 decoding and `TrimSpace` -/

theorem leadInfo_spec {b sz lo hi : Nat} (h : leadInfo b = some (sz, lo, hi)) :
    2 ≤ sz ∧ sz ≤ 4 ∧ 0x80 ≤ lo := by
  unfold leadInfo at h
  split_ifs at h <;> simp at h <;> omega

theorem DecodeRune_size (s : Str) (h : s ≠ []) :
    1 ≤ (DecodeRune s).2 ∧ (DecodeRune s).2 ≤ s.length := by
  rcases s with _ | ⟨s0, rest⟩
  · exact absurd rfl h
  · simp only [DecodeRune]
    by_cases h0 : s0 < 0x80
    · simp [h0]
    · simp only [h0, if_false]
      cases hl : leadInfo s0 with
      | none => simp
      | some t =>
        obtain ⟨sz, lo, hi⟩ := t
        rcases rest with _ | ⟨s1, _ | ⟨s2, _ | ⟨s3, rest3⟩⟩⟩ <;>
          simp only [List.length_cons, List.length_nil] <;>
          split_ifs <;> simp

theorem DecodeRune_append_newline (s : Str) (h : s ≠ []) :
    DecodeRune (s ++ [newline]) = DecodeRune s := by
  rcases s with _ | ⟨s0, rest⟩
  · exact absurd rfl h
  · simp only [List.cons_append, DecodeRune]
    by_cases h0 : s0 < 0x80
    · simp [h0]
    · simp only [h0, if_false]
      cases hl : leadInfo s0 with
      | none => rfl
      | some t =>
        obtain ⟨sz, lo, hi⟩ := t
        obtain ⟨hsz2, hsz4, hlo⟩ := leadInfo_spec hl
        rcases rest with _ | ⟨s1, _ | ⟨s2, _ | ⟨s3, rest3⟩⟩⟩ <;>
          simp only [newline, List.cons_append, List.nil_append, List.length_cons,
            List.length_nil, List.length_append] <;>
          split_ifs <;> first | rfl | omega

theorem IsSpace_newline : IsSpace newline = true := by decide

theorem DecodeLastRune_append_newline (w : Str) :
    DecodeLastRune (w ++ [newline]) = (newline, 1) := by
  simp [DecodeLastRune, newline]

theorem lastRuneStart_lt (s : Str) (h : s ≠ []) : lastRuneStart s < s.length := by
  have hl : 0 < s.length := List.length_pos.mpr h
  unfold lastRuneStart
  simp only
  split_ifs <;> omega

theorem DecodeLastRune_size (s : Str) (h : s ≠ []) : 1 ≤ (DecodeLastRune s).2 := by
  unfold DecodeLastRune
  cases hg : s.getLast? with
  | none => simp [List.getLast?_eq_none_iff] at hg; exact absurd hg h
  | some b =>
    simp only
    split_ifs with h1 h2
    · simp
    · have hlt := lastRuneStart_lt s h
      have : s.drop (lastRuneStart s) ≠ [] := by
        intro e
        have := congrArg List.length e
        simp at this
        omega
      exact (DecodeRune_size _ this).1
    · simp

theorem lastIndexLoop_lt (s : Str) : ∀ (fuel i j : Nat), i ≤ s.length →
    lastIndexLoop s fuel i = some j → j < i := by
  intro fuel
  induction fuel with
  | zero => intro i j _ h; simp [lastIndexLoop] at h
  | succ n ih =>
    intro i j hi h
    simp only [lastIndexLoop] at h
    by_cases h0 : 0 < i
    · simp only [h0, if_true] at h
      have hne : s.take i ≠ [] := by
        intro e
        have := congrArg List.length e
        rw [List.length_take, List.length_nil] at this
        omega
      have hsz := DecodeLastRune_size _ hne
      by_cases hsp : IsSpace (DecodeLastRune (s.take i)).1 = true
      · simp only [hsp, if_true] at h
        have := ih _ j (by omega) h
        omega
      · simp only [hsp, if_false] at h
        injection h with h
        omega
    · simp [h0] at h

theorem lastIndexLoop_append (w t : Str) : ∀ (fuel i : Nat), i ≤ w.length →
    lastIndexLoop (w ++ t) fuel i = lastIndexLoop w fuel i := by
  intro fuel
  induction fuel with
  | zero => intro i _; rfl
  | succ n ih =>
    intro i hi
    simp only [lastIndexLoop, List.take_append_of_le_length hi]
    rw [ih _ (by omega)]

theorem TrimRightFunc_append_newline (w : Str) :
    TrimRightFunc (w ++ [newline]) = TrimRightFunc w := by
  have h1 : lastIndexLoop (w ++ [newline]) ((w ++ [newline]).length + 1) (w ++ [newline]).length =
      lastIndexLoop w (w.length + 1) w.length := by
    have hlen : (w ++ [newline]).length = w.length + 1 := by simp
    rw [hlen]
    have ht : (w ++ [newline]).take (w.length + 1) = w ++ [newline] := by
      rw [← hlen]; exact List.take_length _
    rw [lastIndexLoop]
    simp only [Nat.succ_pos, if_true, ht, DecodeLastRune_append_newline, IsSpace_newline,
      Nat.add_sub_cancel]
    exact lastIndexLoop_append w [newline] _ _ (le_refl _)
  unfold TrimRightFunc
  rw [h1]
  cases hr : lastIndexLoop w (w.length + 1) w.length with
  | none => rfl
  | some i =>
    have hi : i < w.length := lastIndexLoop_lt w _ _ _ (le_refl _) hr
    have hget : (w ++ [newline]).getD i 0 = w.getD i 0 := by
      rw [List.getD_eq_getElem _ _ hi, List.getD_eq_getElem _ _ (by simp; omega)]
      exact List.getElem_append_left hi
    have hne : w.drop i ≠ [] := by
      intro e
      have := congrArg List.length e
      simp at this
      omega
    have hdrop : (w ++ [newline]).drop i = w.drop i ++ [newline] :=
      List.drop_append_of_le_length (le_of_lt hi)
    have hsz := (DecodeRune_size _ hne).2
    have hlen : (w.drop i).length = w.length - i := by simp
    simp only [hget, hdrop, DecodeRune_append_newline _ hne]
    split_ifs
    · exact List.take_append_of_le_length (by omega)
    · exact List.take_append_of_le_length (by omega)

theorem trimLeftLoop_append_newline : ∀ (n : Nat) (s : Str), s.length < n →
    trimLeftLoop (n + 1) (s ++ [newline]) =
      if trimLeftLoop n s = [] then [] else trimLeftLoop n s ++ [newline] := by
  intro n
  induction n with
  | zero => intro s h; omega
  | succ n ih =>
    intro s h
    rcases s with _ | ⟨c, cs⟩
    · have : trimLeftLoop (n + 1) [] = [] := rfl
      simp only [List.nil_append, this, if_true]
      simp [trimLeftLoop, DecodeRune, newline, IsSpace]
    · have hne : c :: cs ≠ [] := by simp
      have hsz := DecodeRune_size _ hne
      have hd := DecodeRune_append_newline _ hne
      simp only [List.cons_append] at hd ⊢
      rw [trimLeftLoop, trimLeftLoop]
      simp only [hd]
      by_cases hsp : IsSpace (DecodeRune (c :: cs)).1 = true
      · simp only [hsp, if_true]
        have hdrop : (c :: (cs ++ [newline])).drop (DecodeRune (c :: cs)).2 =
            (c :: cs).drop (DecodeRune (c :: cs)).2 ++ [newline] := by
          rw [← List.cons_append]
          exact List.drop_append_of_le_length hsz.2
        rw [hdrop]
        apply ih
        simp only [List.length_drop, List.length_cons] at *
        omega
      · simp [hsp]

theorem TrimLeftFunc_append_newline (s : Str) :
    TrimLeftFunc (s ++ [newline]) =
      if TrimLeftFunc s = [] then [] else TrimLeftFunc s ++ [newline] := by
  unfold TrimLeftFunc
  have : (s ++ [newline]).length + 1 = (s.length + 1) + 1 := by simp
  rw [this]
  exact trimLeftLoop_append_newline _ _ (by omega)

/-- The line terminator that `ReadString` leaves at the end of the value is
trimmed with the rest of the white space. -/
theorem TrimSpace_append_newline (s : Str) : TrimSpace (s ++ [newline]) = TrimSpace s := by
  unfold TrimSpace
  rw [TrimLeftFunc_append_newline]
  split_ifs with h
  · rw [h]
  · exact TrimRightFunc_append_newline _

/-! ## Writing through the `bufio.Writer` -/

/-- A write to a file that accepts every write appends all the bytes and
returns no error. -/
theorem File.Write_reliable (f : File) (p : Str) (h : f.room = none) :
    f.Write p = ({ content := f.content ++ p, room := none }, p.length, false) := by
  rcases f with ⟨c, r⟩
  simp only at h
  subst h
  rfl

/-- The loop of `WriteString` ends because its condition fails, not for want
of fuel: two rounds are enough. -/
theorem writeStringLoop_exit (b : Writer) (s : Str) (fuel : Nat) (hf : 2 ≤ fuel) :
    ¬ ((writeStringLoop fuel b s).1.Available < (writeStringLoop fuel b s).2.length ∧
        (writeStringLoop fuel b s).1.err = false) := by
  obtain ⟨n, rfl⟩ : ∃ n, fuel = n + 2 := ⟨fuel - 2, by omega⟩
  -- a round that finds the buffer empty leaves nothing to write or an error
  have direct : ∀ (m : Nat) (b : Writer) (s : Str), b.buf.length = 0 →
      b.Available < s.length ∧ b.err = false →
      ¬ ((writeStringLoop (m + 1) b s).1.Available < (writeStringLoop (m + 1) b s).2.length ∧
        (writeStringLoop (m + 1) b s).1.err = false) := by
    intro m b s hb hc
    rw [writeStringLoop]
    simp only [hc, and_self, if_true, hb]
    rcases hroom : b.wr.room with _ | r
    · rw [File.Write_reliable _ _ hroom]
      simp only [List.drop_length]
      cases m <;> simp [writeStringLoop]
    · simp only [File.Write, hroom]
      by_cases hfit : s.length ≤ r
      · simp only [hfit, if_true, List.drop_length]
        cases m <;> simp [writeStringLoop]
      · simp only [hfit, if_false]
        cases m <;> simp [writeStringLoop]
  by_cases hc : b.Available < s.length ∧ b.err = false
  · by_cases hb : b.buf.length = 0
    · exact direct (n + 1) b s hb hc
    · rw [writeStringLoop, if_pos hc, if_neg hb]
      dsimp only
      generalize hb1 : ({ b with buf := b.buf ++ s.take (min b.Available s.length) } :
        Writer).Flush.1 = b1
      generalize s.drop (min b.Available s.length) = s1
      have hb1' : b1.err = true ∨ b1.buf.length = 0 := by
        rw [← hb1]
        simp only [Writer.Flush]
        split_ifs <;> simp_all
      by_cases hc1 : b1.Available < s1.length ∧ b1.err = false
      · rcases hb1' with he | hz
        · rw [he] at hc1; exact absurd hc1.2 (by simp)
        · exact direct n b1 s1 hz hc1
      · rw [writeStringLoop, if_neg hc1]
        exact hc1
  · rw [writeStringLoop, if_neg hc]
    exact hc

theorem Writer.Flush_sound (b : Writer) (h : b.Sound) :
    b.Flush.2 = false ∧ b.Flush.1.Sound ∧ b.Flush.1.buf = [] ∧
      b.Flush.1.wr.content = b.wr.content ++ b.buf := by
  obtain ⟨he, hr⟩ := h
  unfold Writer.Flush
  simp only [he, Bool.false_eq_true, if_false]
  by_cases hb : b.buf.length = 0
  · have : b.buf = [] := List.length_eq_zero.mp hb
    simp [hb, Writer.Sound, he, hr, this]
  · simp [hb, File.Write_reliable _ _ hr, Writer.Sound]

theorem writeStringLoop_sound : ∀ (fuel : Nat) (b : Writer) (s : Str), b.Sound →
    (writeStringLoop fuel b s).1.Sound ∧
      (writeStringLoop fuel b s).1.wr.content ++ (writeStringLoop fuel b s).1.buf ++
        (writeStringLoop fuel b s).2 = b.wr.content ++ b.buf ++ s := by
  intro fuel
  induction fuel with
  | zero => intro b s h; exact ⟨h, rfl⟩
  | succ n ih =>
    intro b s h
    by_cases hc : b.Available < s.length ∧ b.err = false
    · by_cases hb : b.buf.length = 0
      · rw [writeStringLoop, if_pos hc, if_pos hb]
        dsimp only
        rw [File.Write_reliable _ _ h.2]
        have hbuf : b.buf = [] := List.length_eq_zero.mp hb
        have hs : Writer.Sound ⟨b.buf, false, ⟨b.wr.content ++ s, none⟩⟩ := ⟨rfl, rfl⟩
        obtain ⟨h1, h2⟩ := ih _ (s.drop s.length) hs
        refine ⟨h1, ?_⟩
        rw [h2]
        simp [hbuf]
      · rw [writeStringLoop, if_pos hc, if_neg hb]
        dsimp only
        have hs0 : Writer.Sound { b with buf := b.buf ++ s.take (min b.Available s.length) } :=
          ⟨h.1, h.2⟩
        obtain ⟨_, f2, f3, f4⟩ := Writer.Flush_sound _ hs0
        obtain ⟨h1, h2⟩ := ih _ (s.drop (min b.Available s.length)) f2
        refine ⟨h1, ?_⟩
        rw [h2, f3, f4]
        simp only [List.append_nil, List.append_assoc, List.take_append_drop]
    · rw [writeStringLoop, if_neg hc]
      exact ⟨h, rfl⟩

theorem Writer.WriteString_sound (b : Writer) (s : Str) (h : b.Sound) :
    (b.WriteString s).2 = false ∧ (b.WriteString s).1.Sound ∧
      (b.WriteString s).1.wr.content ++ (b.WriteString s).1.buf =
        b.wr.content ++ b.buf ++ s := by
  obtain ⟨h1, h2⟩ := writeStringLoop_sound (s.length + 2) b s h
  have hx := writeStringLoop_exit b s (s.length + 2) (by omega)
  unfold Writer.WriteString
  simp only [h1.1, Bool.false_eq_true, if_false]
  have hfit : (writeStringLoop (s.length + 2) b s).2.length ≤
      (writeStringLoop (s.length + 2) b s).1.Available := by
    by_contra hc
    exact hx ⟨by omega, h1.1⟩
  refine ⟨trivial, ⟨rfl, h1.2⟩, ?_⟩
  simp only [List.take_of_length_le hfit]
  rw [← List.append_assoc]
  exact h2

theorem writeEntries_sound (m : MemTable) : ∀ (keys : List Str) (w : Writer), w.Sound →
    (writeEntries m keys w).2 = false ∧ (writeEntries m keys w).1.Sound ∧
      (writeEntries m keys w).1.wr.content ++ (writeEntries m keys w).1.buf =
        w.wr.content ++ w.buf ++ joinLines (keys.map (fun k => k ++ colon :: (m.Get k).1)) := by
  intro keys
  induction keys with
  | nil => intro w h; exact ⟨rfl, h, by simp [writeEntries, joinLines]⟩
  | cons k ks ih =>
    intro w h
    obtain ⟨e1, e2, e3⟩ := Writer.WriteString_sound w (entryLine k (m.Get k).1) h
    obtain ⟨g1, g2, g3⟩ := ih _ e2
    rw [writeEntries]
    simp only [e1, Bool.false_eq_true, if_false]
    refine ⟨g1, g2, ?_⟩
    rw [g3, e3]
    simp [entryLine, joinLines]

/-- In an environment in which creating the file and every write succeed,
`MemTable.Flush` returns `nil` and the file holds the whole serialisation. -/
theorem MemTable.Flush_reliable (m : MemTable) (filename : Str) (env : WriteEnv) (fs : FS)
    (h : env.reliable) : m.Flush filename env fs = (none, fs.put filename m.serialize) := by
  obtain ⟨hc, hr⟩ := h
  have hs : (NewWriter { content := [], room := env.room }).Sound := ⟨rfl, hr⟩
  obtain ⟨e1, e2, e3⟩ := writeEntries_sound m (sortStrings m.keys) _ hs
  obtain ⟨_, _, _, f4⟩ := Writer.Flush_sound _ e2
  unfold MemTable.Flush
  simp only [hc, Bool.true_eq_false, if_false, e1, Bool.false_eq_true]
  rw [f4, e3]
  simp [NewWriter, MemTable.serialize]

/-! ## Building the index and looking a key up -/

theorem dropCR_of_not_mem (v : Str) (h : carriageReturn ∉ v) : dropCR v = v := by
  unfold dropCR
  split_ifs with hl
  · exact absurd (List.mem_of_getLast?_eq_some hl) h
  · rfl

theorem dropCR_lineOf (e : Str × Str) : dropCR (lineOf e) = lineOf (e.1, dropCR e.2) := by
  rcases e with ⟨k, v⟩
  unfold dropCR lineOf
  rcases List.eq_nil_or_concat v with rfl | ⟨w, c, rfl⟩
  · have e0 : (k ++ [colon]).getLast? = some colon := List.getLast?_concat _
    simp [e0, colon, carriageReturn]
  · have e1 : (k ++ colon :: (w ++ [c])) = (k ++ colon :: w) ++ [c] := by simp
    simp only [List.concat_eq_append]
    rw [e1, List.getLast?_concat, List.getLast?_concat, List.dropLast_concat,
      List.dropLast_concat]
    split_ifs <;> simp

theorem Split_lineOf (e : Str × Str) (h : colon ∉ e.1) :
    Split colon (lineOf e) = e.1 :: Split colon e.2 :=
  Split_append_sep colon e.1 e.2 h

theorem Split_length_pos (sep : Nat) (s : Str) : 1 ≤ (Split sep s).length :=
  List.length_pos.mpr (Split_ne_nil sep s)

theorem Split_headD (s : Str) : (Split colon s).headD [] = s.takeWhile (fun c => c ≠ colon) := by
  induction s with
  | nil => rfl
  | cons c cs ih =>
    by_cases hc : c = colon
    · rw [List.takeWhile_cons]
      simp [Split, hc]
    · rw [List.takeWhile_cons, ← ih]
      simp only [Split, hc, if_false]
      cases hs : Split colon cs with
      | nil => exact absurd hs (Split_ne_nil _ _)
      | cons p ps => simp [hc]

theorem indexLines_entries (es : List (Str × Str)) (h : ∀ e ∈ es, colon ∉ e.1) :
    ∀ (s : SSTable) (offset : Nat),
      indexLines s (es.map lineOf) offset =
        { filename := s.filename, index := s.index ++ es.map Prod.fst,
          offsets := s.offsets ++ lineOffsets offset (es.map lineOf) } := by
  induction es with
  | nil => intro s offset; simp [indexLines, lineOffsets]
  | cons e es ih =>
    intro s offset
    have he : colon ∉ e.1 := h e (by simp)
    have hes : ∀ x ∈ es, colon ∉ x.1 := fun x hx => h x (by simp [hx])
    have hlen : 2 ≤ (Split colon (lineOf e)).length := by
      rw [Split_lineOf e he]
      have := Split_length_pos colon e.2
      simp only [List.length_cons]
      omega
    rw [List.map_cons, indexLines]
    simp only [if_pos hlen]
    rw [ih hes, Split_lineOf e he]
    simp [lineOffsets]

theorem lineOffsets_get (pre : List Str) (l : Str) (post : List Str) : ∀ (offset : Nat),
    (lineOffsets offset (pre ++ l :: post)).get? pre.length =
      some (offset + (pre.map (fun x => x.length + 1)).sum) := by
  induction pre with
  | nil => intro offset; simp [lineOffsets]
  | cons p ps ih =>
    intro offset
    have e := ih (offset + p.length + 1)
    show (lineOffsets offset (p :: (ps ++ l :: post))).get? (ps.length + 1) = _
    rw [lineOffsets, List.get?_cons_succ, e, List.map_cons, List.sum_cons]
    congr 1
    omega

theorem lineOffsets_length (ls : List Str) : ∀ (offset : Nat),
    (lineOffsets offset ls).length = ls.length := by
  induction ls with
  | nil => intro _; rfl
  | cons l ls ih => intro offset; simp [lineOffsets, ih]

/-- A key that is not in the index of a segment is absent from the segment,
whatever the file holds. -/
theorem SSTable.Get_absent (s : SSTable) (fs : FS) (key : Str) (h : key ∉ s.index) :
    s.Get fs key = some ([], false) := by
  unfold SSTable.Get
  simp only
  split_ifs with hc
  · exfalso
    apply h
    rw [← hc.2, List.getD_eq_getElem _ _ hc.1]
    exact List.getElem_mem _
  · rfl

theorem scanLines_ok (ls : List Str) (h : (scanLines ls).2 = none) :
    (scanLines ls).1 = ls.map dropCR := by
  induction ls with
  | nil => rfl
  | cons l ls ih =>
    by_cases hl : MaxScanTokenSize ≤ l.length
    · simp [scanLines, hl] at h
    · simp only [scanLines, hl, if_false] at h ⊢
      rw [ih h, List.map_cons]

theorem scanLines_ok_iff (ls : List Str) :
    (scanLines ls).2 = none ↔ ∀ l ∈ ls, l.length < MaxScanTokenSize := by
  induction ls with
  | nil => simp [scanLines]
  | cons l ls ih =>
    simp only [scanLines, List.mem_cons, forall_eq_or_imp]
    split_ifs with hl
    · simp; omega
    · simp only [ih]
      constructor
      · intro h; exact ⟨by omega, h⟩
      · intro h; exact h.2

/-! ## The keys and the entries of a buffer -/

theorem lookupKey_mem (key value : Str) (data : List (Str × Str))
    (h : lookupKey key data = some value) : (key, value) ∈ data := by
  induction data with
  | nil => simp [lookupKey] at h
  | cons e rest ih =>
    rw [lookupKey] at h
    split_ifs at h with he
    · rcases e with ⟨k, v⟩
      simp only at he
      simp only [Option.some.injEq] at h
      subst he; subst h
      exact List.mem_cons_self _ _
    · exact List.mem_cons_of_mem _ (ih h)

theorem lookupKey_isSome (key : Str) (data : List (Str × Str)) :
    (lookupKey key data).isSome = true ↔ key ∈ data.map Prod.fst := by
  induction data with
  | nil => simp [lookupKey]
  | cons e rest ih =>
    rw [lookupKey]
    split_ifs with he
    · simp [he]
    · rw [ih, List.map_cons, List.mem_cons]
      constructor
      · intro h; exact Or.inr h
      · rintro (h | h)
        · exact absurd h.symm he
        · exact h

theorem MemTable.Get_mem (m : MemTable) (key value : Str) (h : m.Get key = (value, true)) :
    (key, value) ∈ m.data := by
  unfold MemTable.Get at h
  cases hl : lookupKey key m.data with
  | none => rw [hl] at h; simp at h
  | some v =>
    rw [hl] at h
    simp only [Prod.mk.injEq, and_true] at h
    subst h
    exact lookupKey_mem _ _ _ hl

theorem MemTable.mem_keys (m : MemTable) (key : Str) :
    key ∈ m.keys ↔ (m.Get key).2 = true := by
  unfold MemTable.keys MemTable.Get
  rw [List.mem_dedup, ← lookupKey_isSome]
  cases lookupKey key m.data <;> simp

theorem MemTable.keys_nodup (m : MemTable) : m.keys.Nodup := List.nodup_dedup _

theorem MemTable.Get_of_mem_keys (m : MemTable) (key : Str) (h : key ∈ m.keys) :
    m.Get key = ((m.Get key).1, true) := by
  have := (m.mem_keys key).mp h
  rw [← this]

theorem MemTable.Get_eq_absent (m : MemTable) (key : Str) (h : (m.Get key).2 = false) :
    m.Get key = ([], false) := by
  unfold MemTable.Get at h ⊢
  cases hl : lookupKey key m.data with
  | none => rfl
  | some v => rw [hl] at h; simp at h

theorem MemTable.serialize_eq (m : MemTable) :
    m.serialize = joinLines (m.sortedEntries.map lineOf) := by
  unfold MemTable.serialize MemTable.sortedEntries
  rw [List.map_map]
  rfl

theorem MemTable.sortedEntries_fst (m : MemTable) :
    m.sortedEntries.map Prod.fst = sortStrings m.keys := by
  unfold MemTable.sortedEntries
  rw [List.map_map]
  exact List.map_id _

theorem MemTable.sortedEntries_mem (m : MemTable) (e : Str × Str) (h : e ∈ m.sortedEntries) :
    e ∈ m.data := by
  unfold MemTable.sortedEntries at h
  rw [List.mem_map] at h
  obtain ⟨k, hk, rfl⟩ := h
  have hk2 : k ∈ m.keys := (mem_sortStrings _ _).mp hk
  exact m.Get_mem k _ (m.Get_of_mem_keys k hk2)

theorem MemTable.mem_sortedEntries (m : MemTable) (key value : Str)
    (h : m.Get key = (value, true)) : (key, value) ∈ m.sortedEntries := by
  unfold MemTable.sortedEntries
  rw [List.mem_map]
  refine ⟨key, ?_, by rw [h]⟩
  rw [mem_sortStrings, m.mem_keys, h]

theorem MemTable.sortedEntries_ascending (m : MemTable) :
    Ascending (m.sortedEntries.map Prod.fst) := by
  rw [m.sortedEntries_fst]
  exact ascending_sortStrings _ m.keys_nodup

/-! ## Opening a segment written from entries, and reading it back -/

theorem newline_not_mem_lineOf (e : Str × Str) (h1 : newline ∉ e.1) (h2 : newline ∉ e.2) :
    newline ∉ lineOf e := by
  unfold lineOf
  simp only [List.mem_append, List.mem_cons, not_or]
  exact ⟨h1, by decide, h2⟩

theorem FS.put_same (fs : FS) (name c : Str) : fs.put name c name = some c := by
  simp [FS.put]

theorem FS.put_other (fs : FS) (name c other : Str) (h : other ≠ name) :
    fs.put name c other = fs other := by
  simp [FS.put, h]

/-- Opening a file that holds the lines of the entries `es`: the scan fails on
a line that is too long, and otherwise the index is the list of the keys. -/
theorem NewSSTable_entries (f : Str) (fs : FS) (es : List (Str × Str))
    (hk : ∀ e ∈ es, colon ∉ e.1 ∧ newline ∉ e.1) (hv : ∀ e ∈ es, newline ∉ e.2)
    (hfs : fs f = some (joinLines (es.map lineOf))) (sst : SSTable)
    (h : NewSSTable f fs = Except.ok sst) :
    sst = { filename := f, index := es.map Prod.fst,
            offsets := lineOffsets 0 (es.map (fun e => lineOf (e.1, dropCR e.2))) } := by
  have hraw : rawLines (joinLines (es.map lineOf)) = es.map lineOf := by
    apply rawLines_joinLines
    intro l hl
    rw [List.mem_map] at hl
    obtain ⟨e, he, rfl⟩ := hl
    exact newline_not_mem_lineOf e (hk e he).2 (hv e he)
  unfold NewSSTable SSTable.buildIndex at h
  simp only [hfs, hraw] at h
  cases hs : (scanLines (es.map lineOf)).2 with
  | some err => rw [hs] at h; simp at h
  | none =>
    rw [hs] at h
    simp only [Except.ok.injEq] at h
    rw [← h, scanLines_ok _ hs, List.map_map]
    have e1 : (dropCR ∘ lineOf) = (lineOf ∘ fun e : Str × Str => (e.1, dropCR e.2)) := by
      funext e
      exact dropCR_lineOf e
    rw [e1, ← List.map_map]
    rw [indexLines_entries]
    · simp [List.map_map, Function.comp_def]
    · intro e he
      rw [List.mem_map] at he
      obtain ⟨x, hx, rfl⟩ := he
      exact (hk x hx).1

/-- Whether opening the file of the entries `es` succeeds: it does exactly
when every line is shorter than the scanner allows. -/
theorem NewSSTable_entries_ok (f : Str) (fs : FS) (es : List (Str × Str))
    (hk : ∀ e ∈ es, newline ∉ e.1) (hv : ∀ e ∈ es, newline ∉ e.2)
    (hfs : fs f = some (joinLines (es.map lineOf)))
    (hlen : ∀ e ∈ es, (lineOf e).length < MaxScanTokenSize) :
    ∃ sst, NewSSTable f fs = Except.ok sst := by
  have hraw : rawLines (joinLines (es.map lineOf)) = es.map lineOf := by
    apply rawLines_joinLines
    intro l hl
    rw [List.mem_map] at hl
    obtain ⟨e, he, rfl⟩ := hl
    exact newline_not_mem_lineOf e (hk e he) (hv e he)
  have hs : (scanLines (es.map lineOf)).2 = none := by
    rw [scanLines_ok_iff]
    intro l hl
    rw [List.mem_map] at hl
    obtain ⟨e, he, rfl⟩ := hl
    exact hlen e he
  unfold NewSSTable SSTable.buildIndex
  simp only [hfs, hraw, hs]
  exact ⟨_, rfl⟩

/-- Reading an entry back.  The index is the ascending list of the keys of
`es`, the offsets are the starts of the lines of `es` in the file: the lookup
of the key of an entry finds its line and returns the first field after the
key, trimmed. -/
theorem SSTable.Get_entry (f : Str) (fs : FS) (pre post : List (Str × Str)) (k v : Str)
    (hasc : Ascending ((pre ++ (k, v) :: post).map Prod.fst))
    (hk : colon ∉ k ∧ newline ∉ k) (hv : newline ∉ v)
    (hfs : fs f = some (joinLines ((pre ++ (k, v) :: post).map lineOf))) :
    SSTable.Get { filename := f, index := (pre ++ (k, v) :: post).map Prod.fst,
                  offsets := lineOffsets 0 ((pre ++ (k, v) :: post).map lineOf) } fs k =
      some (TrimSpace ((v ++ [newline]).takeWhile (fun c => c ≠ colon)), true) := by
  have hp : pre.length < ((pre ++ (k, v) :: post).map Prod.fst).length := by simp
  have hget : ((pre ++ (k, v) :: post).map Prod.fst).getD pre.length [] = k := by
    rw [List.getD_eq_getElem _ _ hp]
    simp only [List.map_append, List.map_cons]
    rw [List.getElem_append_right (by simp)]
    simp
  have hsearch : SearchStrings ((pre ++ (k, v) :: post).map Prod.fst) k = pre.length := by
    have := SearchStrings_found _ hasc pre.length hp
    rwa [hget] at this
  have hoff : (lineOffsets 0 ((pre ++ (k, v) :: post).map lineOf)).get? pre.length =
      some ((pre.map (fun e => (lineOf e).length + 1)).sum) := by
    have := lineOffsets_get (pre.map lineOf) (lineOf (k, v)) (post.map lineOf) 0
    rw [List.length_map, List.map_map, Nat.zero_add] at this
    rw [List.map_append, List.map_cons]
    exact this
  have hdrop : (joinLines ((pre ++ (k, v) :: post).map lineOf)).drop
      ((pre.map (fun e => (lineOf e).length + 1)).sum) =
      lineOf (k, v) ++ newline :: joinLines (post.map lineOf) := by
    have := drop_joinLines (pre.map lineOf) (lineOf (k, v)) (post.map lineOf)
    rw [List.map_map] at this
    rw [List.map_append, List.map_cons]
    exact this
  have hread : ReadString (lineOf (k, v) ++ newline :: joinLines (post.map lineOf)) =
      some (lineOf (k, v) ++ [newline]) :=
    ReadString_append _ _ (newline_not_mem_lineOf (k, v) hk.2 hv)
  have hsplit : Split colon (lineOf (k, v) ++ [newline]) =
      k :: Split colon (v ++ [newline]) := by
    have : lineOf (k, v) ++ [newline] = k ++ colon :: (v ++ [newline]) := by
      simp [lineOf]
    rw [this]
    exact Split_append_sep colon k _ hk.1
  have hpart : (Split colon (v ++ [newline])).get? 0 =
      some ((v ++ [newline]).takeWhile (fun c => c ≠ colon)) := by
    rw [← Split_headD]
    cases hs : Split colon (v ++ [newline]) with
    | nil => exact absurd hs (Split_ne_nil _ _)
    | cons p ps => rfl
  unfold SSTable.Get
  simp only [hsearch, hp, hget, and_self, if_true, hfs, hoff, hdrop, hread, hsplit,
    List.headD_cons, List.get?_cons_succ, hpart]

/-! ## The names of the segment files -/

theorem digitsLoop_digits : ∀ (fuel n : Nat) (acc : Str), n < fuel → 0 < n →
    digitsLoop fuel n acc = ((Nat.digits 10 n).map (fun d => 48 + d)).reverse ++ acc := by
  intro fuel
  induction fuel with
  | zero => intro n acc h; omega
  | succ fuel ih =>
    intro n acc h hn
    rw [digitsLoop]
    split_ifs with h10
    · rw [Nat.digits_of_lt 10 n (by omega) h10]
      rfl
    · rw [ih (n / 10) _ (by omega) (by omega), Nat.digits_def' (by omega) hn]
      simp

theorem Itoa_decode (n : Nat) :
    Nat.ofDigits 10 ((Itoa n).reverse.map (fun c => c - 48)) = n := by
  rcases Nat.eq_zero_or_pos n with rfl | hn
  · rfl
  · unfold Itoa
    rw [digitsLoop_digits _ _ _ (by omega) hn, List.append_nil, List.reverse_reverse,
      List.map_map]
    have e : ((fun c => c - 48) ∘ fun d => 48 + d) = (id : Nat → Nat) := by
      funext d
      simp
    rw [e, List.map_id, Nat.ofDigits_digits]

theorem Itoa_injective {a b : Nat} (h : Itoa a = Itoa b) : a = b := by
  rw [← Itoa_decode a, ← Itoa_decode b, h]

theorem segmentName_injective {a b : Nat} (h : segmentName a = segmentName b) : a = b := by
  unfold segmentName at h
  rw [List.append_assoc, List.append_assoc] at h
  have h1 := List.append_cancel_left h
  exact Itoa_injective (List.append_cancel_right h1)

/-! ## What a lookup and a flush depend on and change -/

theorem indexLines_filename (lines : List Str) : ∀ (s : SSTable) (offset : Nat),
    (indexLines s lines offset).filename = s.filename := by
  induction lines with
  | nil => intro s offset; rfl
  | cons l ls ih =>
    intro s offset
    rw [indexLines, ih]
    split_ifs <;> rfl

theorem NewSSTable_filename (f : Str) (fs : FS) (sst : SSTable)
    (h : NewSSTable f fs = Except.ok sst) : sst.filename = f := by
  unfold NewSSTable SSTable.buildIndex at h
  cases hf : fs f with
  | none => rw [hf] at h; simp at h
  | some content =>
    rw [hf] at h
    dsimp only at h
    cases hs : (scanLines (rawLines content)).2 with
    | some err => rw [hs] at h; simp at h
    | none =>
      rw [hs] at h
      simp only [Except.ok.injEq] at h
      rw [← h, indexLines_filename]

theorem SSTable.Get_congr (s : SSTable) (fs1 fs2 : FS) (key : Str)
    (h : fs1 s.filename = fs2 s.filename) : s.Get fs1 key = s.Get fs2 key := by
  unfold SSTable.Get
  rw [h]

theorem searchSSTables_congr (fs1 fs2 : FS) (key : Str) (ss : List SSTable)
    (h : ∀ s ∈ ss, fs1 s.filename = fs2 s.filename) :
    searchSSTables fs1 key ss = searchSSTables fs2 key ss := by
  induction ss with
  | nil => rfl
  | cons s older ih =>
    rw [searchSSTables, searchSSTables, s.Get_congr fs1 fs2 key (h s (List.mem_cons_self _ _)),
      ih (fun x hx => h x (List.mem_cons_of_mem _ hx))]

theorem searchSSTables_absent (fs : FS) (key : Str) (ss : List SSTable)
    (h : ∀ s ∈ ss, s.Get fs key = some ([], false)) :
    searchSSTables fs key ss = some ([], false) := by
  induction ss with
  | nil => rfl
  | cons s older ih =>
    rw [searchSSTables, h s (List.mem_cons_self _ _)]
    exact ih (fun x hx => h x (List.mem_cons_of_mem _ hx))

theorem MemTable.Flush_frame (m : MemTable) (f : Str) (env : WriteEnv) (fs : FS) (g : Str)
    (h : g ≠ f) : (m.Flush f env fs).2 g = fs g := by
  unfold MemTable.Flush
  dsimp only
  split_ifs
  · rfl
  · exact FS.put_other _ _ _ _ h
  · exact FS.put_other _ _ _ _ h

/-- The two outcomes of `LSMTree.Flush`: an error, with the tree as it was, or
a new segment opened from the file just written, appended to the segments,
and an empty buffer. -/
theorem LSMTree.Flush_cases (l : LSMTree) (env : WriteEnv) (fs : FS) :
    (∃ err, l.Flush env fs =
      (some err, l, (l.memTable.Flush (segmentName l.sstables.length) env fs).2)) ∨
    (∃ sst, (l.memTable.Flush (segmentName l.sstables.length) env fs).1 = none ∧
      NewSSTable (segmentName l.sstables.length)
        (l.memTable.Flush (segmentName l.sstables.length) env fs).2 = Except.ok sst ∧
      l.Flush env fs =
        (none, { memTable := NewMemTable, sstables := l.sstables ++ [sst] },
          (l.memTable.Flush (segmentName l.sstables.length) env fs).2)) := by
  unfold LSMTree.Flush
  dsimp only
  generalize l.memTable.Flush (segmentName l.sstables.length) env fs = r
  rcases r with ⟨e, fs1⟩
  cases e with
  | some err => exact Or.inl ⟨err, rfl⟩
  | none =>
    dsimp only
    cases hn : NewSSTable (segmentName l.sstables.length) fs1 with
    | error err => exact Or.inl ⟨err, rfl⟩
    | ok sst => exact Or.inr ⟨sst, rfl, rfl, rfl⟩

theorem LSMTree.Flush_ok (l : LSMTree) (env : WriteEnv) (fs : FS)
    (h : (l.Flush env fs).1 = none) :
    ∃ sst, (l.memTable.Flush (segmentName l.sstables.length) env fs).1 = none ∧
      NewSSTable (segmentName l.sstables.length)
        (l.memTable.Flush (segmentName l.sstables.length) env fs).2 = Except.ok sst ∧
      l.Flush env fs =
        (none, { memTable := NewMemTable, sstables := l.sstables ++ [sst] },
          (l.memTable.Flush (segmentName l.sstables.length) env fs).2) := by
  rcases l.Flush_cases env fs with ⟨err, he⟩ | h2
  · rw [he] at h
    simp at h
  · exact h2

theorem LSMTree.Flush_leaves_file (l : LSMTree) (env : WriteEnv) (fs : FS) (g : Str)
    (h : g ≠ segmentName l.sstables.length) : (l.Flush env fs).2.2 g = fs g := by
  rcases l.Flush_cases env fs with ⟨err, he⟩ | ⟨sst, _, _, he⟩ <;> rw [he] <;>
    exact MemTable.Flush_frame _ _ _ _ _ h

theorem LSMTree.Flush_filenames (l : LSMTree) (env : WriteEnv) (fs : FS)
    (h : l.sstables.map SSTable.filename = (List.range l.sstables.length).map segmentName) :
    (l.Flush env fs).2.1.sstables.map SSTable.filename =
      (List.range (l.Flush env fs).2.1.sstables.length).map segmentName := by
  rcases l.Flush_cases env fs with ⟨err, he⟩ | ⟨sst, _, hn, he⟩ <;> rw [he]
  · exact h
  · simp only [List.map_append, List.length_append, List.length_singleton, List.map_cons,
      List.map_nil, List.range_succ, h, NewSSTable_filename _ _ _ hn]

theorem run_filenames (ops : List Op) : ∀ (st : State),
    st.tree.sstables.map SSTable.filename =
      (List.range st.tree.sstables.length).map segmentName →
    (run st ops).tree.sstables.map SSTable.filename =
      (List.range (run st ops).tree.sstables.length).map segmentName := by
  induction ops with
  | nil => intro st h; exact h
  | cons op ops ih =>
    intro st h
    show (run (step st op) ops).tree.sstables.map SSTable.filename = _
    apply ih
    cases op with
    | set key value => exact h
    | flush env => exact st.tree.Flush_filenames env st.fs h

/-- In a state reached from `NewLSMTree` the segments carry, in order, the
names `sstable_0.txt`, `sstable_1.txt`, and so on. -/
theorem Reachable.filenames {st : State} (h : Reachable st) :
    st.tree.sstables.map SSTable.filename =
      (List.range st.tree.sstables.length).map segmentName := by
  obtain ⟨fs0, ops, rfl⟩ := h
  exact run_filenames ops _ rfl

theorem filenames_ne_next (ss : List SSTable)
    (h : ss.map SSTable.filename = (List.range ss.length).map segmentName) :
    ∀ s ∈ ss, s.filename ≠ segmentName ss.length := by
  intro s hs e
  have h1 : s.filename ∈ ss.map SSTable.filename := List.mem_map_of_mem _ hs
  rw [h, List.mem_map] at h1
  obtain ⟨i, hi, hie⟩ := h1
  rw [e] at hie
  have := segmentName_injective hie
  rw [List.mem_range] at hi
  omega

/-- A flush leaves the file of every segment of a reachable tree as it was, so
every lookup in these segments gives what it gave before. -/
theorem LSMTree.Flush_search (l : LSMTree) (env : WriteEnv) (fs : FS) (key : Str)
    (h : l.sstables.map SSTable.filename = (List.range l.sstables.length).map segmentName) :
    searchSSTables (l.Flush env fs).2.2 key l.sstables.reverse =
      searchSSTables fs key l.sstables.reverse := by
  apply searchSSTables_congr
  intro s hs
  exact l.Flush_leaves_file env fs _ (filenames_ne_next _ h s (List.mem_reverse.mp hs))

/-! ## The segment of a flushed buffer -/

theorem MemTable.sortedEntries_all (m : MemTable) (pk pv : Str → Prop) (h : m.All pk pv) :
    ∀ e ∈ m.sortedEntries, pk e.1 ∧ pv e.2 :=
  fun e he => h e (m.sortedEntries_mem e he)

theorem MemTable.segment_index (m : MemTable) (f : Str) (fs : FS) (sst : SSTable)
    (hall : m.All (fun k => colon ∉ k ∧ newline ∉ k) (fun v => newline ∉ v))
    (h : NewSSTable f (fs.put f m.serialize) = Except.ok sst) :
    sst.filename = f ∧ sst.index = sortStrings m.keys := by
  have hes := m.sortedEntries_all _ _ hall
  have := NewSSTable_entries f (fs.put f m.serialize) m.sortedEntries
    (fun e he => (hes e he).1) (fun e he => (hes e he).2)
    (by rw [FS.put_same, m.serialize_eq]) sst h
  rw [this]
  exact ⟨rfl, m.sortedEntries_fst⟩

theorem MemTable.segment_get_absent (m : MemTable) (f : Str) (fs : FS) (sst : SSTable)
    (hall : m.All (fun k => colon ∉ k ∧ newline ∉ k) (fun v => newline ∉ v))
    (h : NewSSTable f (fs.put f m.serialize) = Except.ok sst) (fs2 : FS) (key : Str)
    (hg : (m.Get key).2 = false) : sst.Get fs2 key = some ([], false) := by
  apply SSTable.Get_absent
  rw [(m.segment_index f fs sst hall h).2, mem_sortStrings, m.mem_keys, hg]
  simp

/-- The lookup of a buffered key in the segment written from the buffer finds
the line of the key and returns its first field after the key, trimmed. -/
theorem MemTable.segment_get (m : MemTable) (f : Str) (fs : FS) (sst : SSTable)
    (hall : m.All (fun k => colon ∉ k ∧ newline ∉ k)
      (fun v => newline ∉ v ∧ carriageReturn ∉ v))
    (h : NewSSTable f (fs.put f m.serialize) = Except.ok sst) (key value : Str)
    (hg : m.Get key = (value, true)) :
    sst.Get (fs.put f m.serialize) key =
      some (TrimSpace ((value ++ [newline]).takeWhile (fun c => c ≠ colon)), true) := by
  have hes := m.sortedEntries_all _ _ hall
  have hsst := NewSSTable_entries f (fs.put f m.serialize) m.sortedEntries
    (fun e he => (hes e he).1) (fun e he => (hes e he).2.1)
    (by rw [FS.put_same, m.serialize_eq]) sst h
  have hcr : m.sortedEntries.map (fun e => lineOf (e.1, dropCR e.2)) =
      m.sortedEntries.map lineOf := by
    apply List.map_congr_left
    intro e he
    rw [dropCR_of_not_mem _ (hes e he).2.2]
  rw [hcr] at hsst
  obtain ⟨pre, post, hsplit⟩ := List.append_of_mem (m.mem_sortedEntries key value hg)
  have hkv := hes _ (m.mem_sortedEntries key value hg)
  rw [hsst, hsplit]
  apply SSTable.Get_entry
  · rw [← hsplit]; exact m.sortedEntries_ascending
  · exact hkv.1
  · exact hkv.2.1
  · rw [FS.put_same, m.serialize_eq, hsplit]

theorem takeWhile_value (v : Str) (h : colon ∉ v) :
    (v ++ [newline]).takeWhile (fun c => c ≠ colon) = v ++ [newline] := by
  rw [List.takeWhile_eq_self_iff]
  intro x hx
  rw [List.mem_append, List.mem_singleton] at hx
  rcases hx with hx | hx
  · have : x ≠ colon := fun e => h (e ▸ hx)
    simpa using this
  · subst hx
    decide

theorem TrimSpace_value (v : Str) (h : colon ∉ v) (ht : Trimmed v) :
    TrimSpace ((v ++ [newline]).takeWhile (fun c => c ≠ colon)) = v := by
  rw [takeWhile_value v h, TrimSpace_append_newline]
  exact ht

theorem MemTable.All_mono (m : MemTable) {pk pv qk qv : Str → Prop} (h : m.All pk pv)
    (hk : ∀ s, pk s → qk s) (hv : ∀ s, pv s → qv s) : m.All qk qv :=
  fun e he => ⟨hk _ (h e he).1, hv _ (h e he).2⟩

theorem MemTable.All_Set (m : MemTable) {pk pv : Str → Prop} (h : m.All pk pv)
    (key value : Str) (hk : pk key) (hv : pv value) : (m.Set key value).All pk pv := by
  intro e he
  unfold MemTable.Set at he
  simp only [List.mem_cons] at he
  rcases he with rfl | he
  · exact ⟨hk, hv⟩
  · exact h e (List.mem_of_mem_filter he)

theorem MemTable.All_New (pk pv : Str → Prop) : NewMemTable.All pk pv := by
  intro e he
  simp [NewMemTable] at he

/-! ## Lookups in the engine -/

theorem LSMTree.Get_of_buffer (l : LSMTree) (fs : FS) (key value : Str)
    (h : l.memTable.Get key = (value, true)) : l.Get fs key = some (value, true) := by
  unfold LSMTree.Get
  rw [h]

theorem LSMTree.Get_of_absent (l : LSMTree) (fs : FS) (key : Str)
    (h : (l.memTable.Get key).2 = false) :
    l.Get fs key = searchSSTables fs key l.sstables.reverse := by
  unfold LSMTree.Get
  rw [l.memTable.Get_eq_absent key h]

/-- After a flush that succeeded, a key of the flushed buffer is found in the
new segment, which is consulted first. -/
theorem LSMTree.Flush_get_present (l : LSMTree) (env : WriteEnv) (fs : FS)
    (he : env.reliable) (hf : (l.Flush env fs).1 = none)
    (hall : l.memTable.All (fun k => colon ∉ k ∧ newline ∉ k)
      (fun v => newline ∉ v ∧ carriageReturn ∉ v))
    (key value : Str) (hg : l.memTable.Get key = (value, true)) :
    (l.Flush env fs).2.1.Get (l.Flush env fs).2.2 key =
      some (TrimSpace ((value ++ [newline]).takeWhile (fun c => c ≠ colon)), true) := by
  obtain ⟨sst, _, hn, hfl⟩ := l.Flush_ok env fs hf
  rw [MemTable.Flush_reliable _ _ _ _ he] at hn hfl
  rw [hfl]
  dsimp only
  rw [LSMTree.Get_of_absent _ _ _ (by rfl)]
  dsimp only
  rw [List.reverse_append, List.reverse_singleton, List.singleton_append, searchSSTables,
    l.memTable.segment_get _ fs sst hall hn key value hg]

/-- After a flush that succeeded, a key that the flushed buffer does not hold
is looked up in the older segments, as before. -/
theorem LSMTree.Flush_get_absent (l : LSMTree) (env : WriteEnv) (fs : FS)
    (he : env.reliable) (hf : (l.Flush env fs).1 = none)
    (hall : l.memTable.All (fun k => colon ∉ k ∧ newline ∉ k) (fun v => newline ∉ v))
    (key : Str) (hg : (l.memTable.Get key).2 = false) :
    (l.Flush env fs).2.1.Get (l.Flush env fs).2.2 key =
      searchSSTables (l.Flush env fs).2.2 key l.sstables.reverse := by
  obtain ⟨sst, _, hn, hfl⟩ := l.Flush_ok env fs hf
  rw [MemTable.Flush_reliable _ _ _ _ he] at hn hfl
  rw [hfl]
  dsimp only
  rw [LSMTree.Get_of_absent _ _ _ (by rfl)]
  dsimp only
  rw [List.reverse_append, List.reverse_singleton, List.singleton_append, searchSSTables,
    l.memTable.segment_get_absent _ fs sst hall hn _ key hg]

/-! ## The content of the file as a concatenation of entries -/

theorem joinLines_eq_join (keys : List Str) (val : Str → Str) :
    joinLines (keys.map (fun k => k ++ colon :: val k)) =
      (keys.map (fun k => entryLine k (val k))).flatten := by
  induction keys with
  | nil => rfl
  | cons k ks ih =>
    simp only [List.map_cons, joinLines, List.flatten_cons, ih, entryLine]
    simp

theorem MemTable.keys_ext (m1 m2 : MemTable) (h : ∀ k, m1.Get k = m2.Get k) :
    sortStrings m1.keys = sortStrings m2.keys := by
  apply Ascending.ext (ascending_sortStrings _ m1.keys_nodup)
    (ascending_sortStrings _ m2.keys_nodup)
  intro x
  rw [mem_sortStrings, mem_sortStrings, m1.mem_keys, m2.mem_keys, h]

theorem MemTable.serialize_ext (m1 m2 : MemTable) (h : ∀ k, m1.Get k = m2.Get k) :
    m1.serialize = m2.serialize := by
  unfold MemTable.serialize
  rw [m1.keys_ext m2 h]
  congr 1
  apply List.map_congr_left
  intro k _
  rw [h]

/-! ## Keys that were never written -/

theorem MemTable.Get_of_not_mem (m : MemTable) (key : Str)
    (h : ∀ e ∈ m.data, e.1 ≠ key) : m.Get key = ([], false) := by
  apply m.Get_eq_absent
  cases hg : (m.Get key).2 with
  | false => rfl
  | true =>
    have hk := (m.mem_keys key).mpr hg
    unfold MemTable.keys at hk
    rw [List.mem_dedup, List.mem_map] at hk
    obtain ⟨e, he, hek⟩ := hk
    exact absurd hek (h e he)

/-! ## The properties of the specification -/

set_option maxRecDepth 100000

/-- C1: the buffer shadows the segments.  For every tree (any buffer, any
list of segments), every file system, key `k` and value `v`, after
`Set(k, v)` the call `Get(k)` returns `(v, true)`, whatever the segments
hold for `k`; in particular after `Set("a","1")`, `Flush`, `Set("a","2")` the
call `Get("a")` returns `"2"`, from any tree and whatever the flush did. -/
theorem C1_buffer_shadows_segments :
    (∀ (l : LSMTree) (fs : FS) (k v : Str), (l.Set k v).Get fs k = some (v, true)) ∧
    (∀ (l : LSMTree) (env : WriteEnv) (fs : FS),
      (((l.Set [97] [49]).Flush env fs).2.1.Set [97] [50]).Get
        ((l.Set [97] [49]).Flush env fs).2.2 [97] = some ([50], true)) :=
  ⟨fun l fs k v => LSMTree.Get_after_Set l fs k v,
   fun _ _ _ => LSMTree.Get_after_Set _ _ _ _⟩

/-- The newer segment shadows the older one when the second flush writes its
whole file.  From `NewLSMTree`, on any file system, for a key `k` and a value
`v2` without `:` and without a line terminator, `v2` without leading or
trailing white space, and any value `v1`: when both flushes of `Set(k, v1)`,
`Flush`, `Set(k, v2)`, `Flush` return `nil` and every write of the second
one succeeds, `Get(k)` then returns `(v2, true)`, and the buffer is empty. -/
theorem newer_segment_shadows_older_of_reliable (fs0 : FS) (env1 env2 : WriteEnv)
    (k v1 v2 : Str) (hk : Plain k) (h2 : Plain v2 ∧ Trimmed v2) (he2 : env2.reliable)
    (hf : FlushesSucceed { tree := NewLSMTree, fs := fs0 }
      [Op.set k v1, Op.flush env1, Op.set k v2, Op.flush env2]) :
    (run { tree := NewLSMTree, fs := fs0 }
        [Op.set k v1, Op.flush env1, Op.set k v2, Op.flush env2]).tree.Get
      (run { tree := NewLSMTree, fs := fs0 }
        [Op.set k v1, Op.flush env1, Op.set k v2, Op.flush env2]).fs k = some (v2, true) ∧
    (run { tree := NewLSMTree, fs := fs0 }
        [Op.set k v1, Op.flush env1, Op.set k v2, Op.flush env2]).tree.memTable =
      NewMemTable := by
  obtain ⟨hok1, hok2, _⟩ := hf
  obtain ⟨sst1, _, _, hfl1⟩ := LSMTree.Flush_ok _ _ _ hok1
  have hm : ((step (step { tree := NewLSMTree, fs := fs0 } (Op.set k v1))
      (Op.flush env1)).tree.Set k v2).memTable = NewMemTable.Set k v2 := by
    show (((step { tree := NewLSMTree, fs := fs0 } (Op.set k v1)).tree.Flush env1
      (step { tree := NewLSMTree, fs := fs0 } (Op.set k v1)).fs).2.1.Set k v2).memTable = _
    rw [hfl1]
    rfl
  have hall : ((step (step { tree := NewLSMTree, fs := fs0 } (Op.set k v1))
      (Op.flush env1)).tree.Set k v2).memTable.All
      (fun k => colon ∉ k ∧ newline ∉ k) (fun v => newline ∉ v ∧ carriageReturn ∉ v) := by
    rw [hm]
    exact MemTable.All_Set _ (MemTable.All_New _ _) k v2 ⟨hk.1, hk.2.1⟩ ⟨h2.1.2.1, h2.1.2.2⟩
  have hg : ((step (step { tree := NewLSMTree, fs := fs0 } (Op.set k v1))
      (Op.flush env1)).tree.Set k v2).memTable.Get k = (v2, true) := by
    rw [hm]
    exact MemTable.Get_Set_same _ _ _
  have hget := LSMTree.Flush_get_present _ env2 _ he2 hok2 hall k v2 hg
  rw [TrimSpace_value v2 h2.1.1 h2.2] at hget
  obtain ⟨sst2, _, _, hfl2⟩ := LSMTree.Flush_ok _ _ _ hok2
  refine ⟨hget, ?_⟩
  show (LSMTree.Flush _ env2 _).2.1.memTable = NewMemTable
  rw [hfl2]

/-- An instance of the cross-segment shadowing: `Set("a","1")`, `Flush`,
`Set("a","2")`, `Flush` on the empty file system, every call succeeding. -/
theorem newer_segment_shadows_older_of_reliable_witness :
    okEnv.reliable ∧
    FlushesSucceed { tree := NewLSMTree, fs := noFiles }
      [Op.set [97] [49], Op.flush okEnv, Op.set [97] [50], Op.flush okEnv] ∧
    ((run { tree := NewLSMTree, fs := noFiles }
        [Op.set [97] [49], Op.flush okEnv, Op.set [97] [50], Op.flush okEnv]).tree.Get
      (run { tree := NewLSMTree, fs := noFiles }
        [Op.set [97] [49], Op.flush okEnv, Op.set [97] [50], Op.flush okEnv]).fs [97] =
        some ([50], true) ∧
    (run { tree := NewLSMTree, fs := noFiles }
        [Op.set [97] [49], Op.flush okEnv, Op.set [97] [50], Op.flush okEnv]).tree.memTable =
      NewMemTable) :=
  ⟨by decide, ⟨by decide, by decide, trivial⟩,
   newer_segment_shadows_older_of_reliable noFiles okEnv okEnv [97] [49] [50] (by decide)
     (by decide) (by decide) ⟨by decide, by decide, trivial⟩⟩

/-- A flush that writes its whole file is invisible to reads.  In a state
reached from `NewLSMTree` by `Set` and `Flush` calls, whose buffered keys
hold no `:` and no line terminator and whose buffered values hold no `:`, no
line terminator and no leading or trailing white space, when the file is
created, every write to it succeeds and `Flush` returns `nil`, `Get(k)`
returns after the flush what it returned before it, for every key `k`. -/
theorem flush_invisible_to_reads_of_reliable (st : State) (env : WriteEnv) (hr : Reachable st)
    (hall : st.tree.memTable.All Plain (fun v => Plain v ∧ Trimmed v))
    (he : env.reliable) (hf : (st.tree.Flush env st.fs).1 = none) (k : Str) :
    (st.tree.Flush env st.fs).2.1.Get (st.tree.Flush env st.fs).2.2 k =
      st.tree.Get st.fs k := by
  cases hg : (st.tree.memTable.Get k).2 with
  | false =>
    have hall2 := st.tree.memTable.All_mono hall
      (fun s (h : Plain s) => (⟨h.1, h.2.1⟩ : colon ∉ s ∧ newline ∉ s))
      (fun s (h : Plain s ∧ Trimmed s) => h.1.2.1)
    rw [LSMTree.Flush_get_absent _ env _ he hf hall2 k hg,
      LSMTree.Flush_search _ env _ k hr.filenames, LSMTree.Get_of_absent _ _ _ hg]
  | true =>
    have hgv : st.tree.memTable.Get k = ((st.tree.memTable.Get k).1, true) := by
      rw [← hg]
    have hv := (hall _ (st.tree.memTable.Get_mem k _ hgv)).2
    have hall2 := st.tree.memTable.All_mono hall
      (fun s (h : Plain s) => (⟨h.1, h.2.1⟩ : colon ∉ s ∧ newline ∉ s))
      (fun s (h : Plain s ∧ Trimmed s) => (⟨h.1.2.1, h.1.2.2⟩ : newline ∉ s ∧ carriageReturn ∉ s))
    rw [LSMTree.Flush_get_present _ env _ he hf hall2 k _ hgv,
      TrimSpace_value _ hv.1.1 hv.2, LSMTree.Get_of_buffer _ _ k _ hgv]

/-- An instance of the invisible flush: the state after `Set("a","1")`,
`Flush`, `Set("b","2")` on the empty file system, flushed again, read at
`"a"`. -/
theorem flush_invisible_to_reads_of_reliable_witness :
    Reachable (run { tree := NewLSMTree, fs := noFiles }
      [Op.set [97] [49], Op.flush okEnv, Op.set [98] [50]]) ∧
    (run { tree := NewLSMTree, fs := noFiles }
      [Op.set [97] [49], Op.flush okEnv, Op.set [98] [50]]).tree.memTable.All Plain
        (fun v => Plain v ∧ Trimmed v) ∧
    okEnv.reliable ∧
    ((run { tree := NewLSMTree, fs := noFiles }
      [Op.set [97] [49], Op.flush okEnv, Op.set [98] [50]]).tree.Flush okEnv
        (run { tree := NewLSMTree, fs := noFiles }
          [Op.set [97] [49], Op.flush okEnv, Op.set [98] [50]]).fs).1 = none ∧
    ((run { tree := NewLSMTree, fs := noFiles }
      [Op.set [97] [49], Op.flush okEnv, Op.set [98] [50]]).tree.Flush okEnv
        (run { tree := NewLSMTree, fs := noFiles }
          [Op.set [97] [49], Op.flush okEnv, Op.set [98] [50]]).fs).2.1.Get
      ((run { tree := NewLSMTree, fs := noFiles }
        [Op.set [97] [49], Op.flush okEnv, Op.set [98] [50]]).tree.Flush okEnv
          (run { tree := NewLSMTree, fs := noFiles }
            [Op.set [97] [49], Op.flush okEnv, Op.set [98] [50]]).fs).2.2 [97] =
      (run { tree := NewLSMTree, fs := noFiles }
        [Op.set [97] [49], Op.flush okEnv, Op.set [98] [50]]).tree.Get
        (run { tree := NewLSMTree, fs := noFiles }
          [Op.set [97] [49], Op.flush okEnv, Op.set [98] [50]]).fs [97] :=
  ⟨⟨noFiles, _, rfl⟩, by unfold MemTable.All; decide, by decide, by decide,
   flush_invisible_to_reads_of_reliable _ okEnv ⟨noFiles, _, rfl⟩ (by unfold MemTable.All; decide)
     (by decide) (by decide) [97]⟩

/-- C4: the round trip through the file fails for a value with white space at
an end.  The buffer with the one entry `("k", " v")` has no `:` and no line
terminator in its key and value; `Flush("f")` succeeds and `NewSSTable("f")`
opens the file, and `SSTable.Get("k")` returns `("v", true)`: the value
without its leading blank, not the value that was written. -/
theorem C4_round_trip_trims_value :
    (NewMemTable.Set [107] [32, 118]).All Plain Plain ∧
    (NewMemTable.Set [107] [32, 118]).Get [107] = ([32, 118], true) ∧
    ((NewMemTable.Set [107] [32, 118]).Flush [102] okEnv noFiles).1 = none ∧
    ∃ sst, NewSSTable [102]
        ((NewMemTable.Set [107] [32, 118]).Flush [102] okEnv noFiles).2 = Except.ok sst ∧
      sst.Get ((NewMemTable.Set [107] [32, 118]).Flush [102] okEnv noFiles).2 [107] =
        some ([118], true) :=
  ⟨by unfold MemTable.All; decide, by decide, by decide,
   ⟨{ filename := [102], index := [[107]], offsets := [0] }, rfl, by decide⟩⟩

/-- A `MemTable.Flush` whose writes all succeed writes the entries sorted by
key.  For every buffer, file name and file system, when the file is created
and every write to it succeeds, `Flush(f)` returns `nil` and the content of
`f` is the
concatenation of `key + ":" + value + "\n"` over a list of keys that is
strictly ascending in byte-wise order and holds exactly the keys of the
buffer; a buffer with the same key-to-value mapping, however it was built,
gives the same content. -/
theorem flush_writes_sorted_of_reliable (m : MemTable) (f : Str) (env : WriteEnv) (fs : FS)
    (he : env.reliable) :
    (m.Flush f env fs).1 = none ∧
    (∃ keys : List Str, Ascending keys ∧ (∀ k, k ∈ keys ↔ (m.Get k).2 = true) ∧
      (m.Flush f env fs).2 f =
        some ((keys.map (fun k => entryLine k (m.Get k).1)).flatten)) ∧
    (∀ m2 : MemTable, (∀ k, m2.Get k = m.Get k) →
      (m2.Flush f env fs).2 f = (m.Flush f env fs).2 f) := by
  refine ⟨by rw [MemTable.Flush_reliable m f env fs he], ⟨sortStrings m.keys, ?_, ?_, ?_⟩, ?_⟩
  · exact ascending_sortStrings _ m.keys_nodup
  · intro k
    rw [mem_sortStrings, m.mem_keys]
  · rw [MemTable.Flush_reliable m f env fs he]
    dsimp only
    rw [FS.put_same, MemTable.serialize, joinLines_eq_join]
  · intro m2 h
    rw [MemTable.Flush_reliable m f env fs he, MemTable.Flush_reliable m2 f env fs he]
    dsimp only
    rw [FS.put_same, FS.put_same, m2.serialize_ext m h]

/-- An instance of the sorted flush: the buffer after `Set("b","2")`,
`Set("a","1")`, flushed to the file `"f"` on the empty file system. -/
theorem flush_writes_sorted_of_reliable_witness :
    okEnv.reliable ∧
    (((NewMemTable.Set [98] [50]).Set [97] [49]).Flush [102] okEnv noFiles).1 = none ∧
    (∃ keys : List Str, Ascending keys ∧
      (∀ k, k ∈ keys ↔ (((NewMemTable.Set [98] [50]).Set [97] [49]).Get k).2 = true) ∧
      (((NewMemTable.Set [98] [50]).Set [97] [49]).Flush [102] okEnv noFiles).2 [102] =
        some ((keys.map (fun k =>
          entryLine k (((NewMemTable.Set [98] [50]).Set [97] [49]).Get k).1)).flatten)) ∧
    (∀ m2 : MemTable, (∀ k, m2.Get k = ((NewMemTable.Set [98] [50]).Set [97] [49]).Get k) →
      (m2.Flush [102] okEnv noFiles).2 [102] =
        (((NewMemTable.Set [98] [50]).Set [97] [49]).Flush [102] okEnv noFiles).2 [102]) :=
  ⟨by decide, flush_writes_sorted_of_reliable _ [102] okEnv noFiles (by decide)⟩

/-- C7: `MemTable.Set` is an unconditional upsert.  For every buffer, key `k`
and value `v`, after `Set(k, v)` the call `Get(k)` returns `(v, true)`,
whether or not `k` had a value before. -/
theorem C7_memtable_set_upsert (m : MemTable) (k v : Str) :
    (m.Set k v).Get k = (v, true) :=
  MemTable.Get_Set_same m k v

/-- C8: a failed flush changes nothing.  In a state reached from
`NewLSMTree`, when `LSMTree.Flush` returns an error the tree after the call
(segment list and buffer) is the tree before it, every lookup in a segment
gives on the file system after the call what it gave before, and so does
`LSMTree.Get` for every key. -/
theorem C8_failed_flush_changes_nothing (st : State) (env : WriteEnv) (err : Error)
    (hr : Reachable st) (hf : (st.tree.Flush env st.fs).1 = some err) :
    (st.tree.Flush env st.fs).2.1 = st.tree ∧
    (∀ s ∈ st.tree.sstables, ∀ k,
      s.Get (st.tree.Flush env st.fs).2.2 k = s.Get st.fs k) ∧
    (∀ k, (st.tree.Flush env st.fs).2.1.Get (st.tree.Flush env st.fs).2.2 k =
      st.tree.Get st.fs k) := by
  have h1 : (st.tree.Flush env st.fs).2.1 = st.tree := by
    rcases st.tree.Flush_cases env st.fs with ⟨e, he⟩ | ⟨sst, _, _, he⟩
    · rw [he]
    · rw [he] at hf
      simp at hf
  have h2 : ∀ s ∈ st.tree.sstables, (st.tree.Flush env st.fs).2.2 s.filename =
      st.fs s.filename :=
    fun s hs => st.tree.Flush_leaves_file env st.fs _ (filenames_ne_next _ hr.filenames s hs)
  refine ⟨h1, fun s hs k => s.Get_congr _ _ k (h2 s hs), ?_⟩
  intro k
  rw [h1]
  unfold LSMTree.Get
  rw [searchSSTables_congr _ st.fs k _ (fun s hs => h2 s (List.mem_reverse.mp hs))]

/-- An instance of the failed flush: after `Set("a","1")`, `Flush`,
`Set("a","2")` on the empty file system, a `Flush` whose file cannot be
created. -/
theorem C8_failed_flush_changes_nothing_witness :
    Reachable (run { tree := NewLSMTree, fs := noFiles }
      [Op.set [97] [49], Op.flush okEnv, Op.set [97] [50]]) ∧
    ((run { tree := NewLSMTree, fs := noFiles }
      [Op.set [97] [49], Op.flush okEnv, Op.set [97] [50]]).tree.Flush { createOk := false, room := none }
      (run { tree := NewLSMTree, fs := noFiles }
      [Op.set [97] [49], Op.flush okEnv, Op.set [97] [50]]).fs).1 = some Error.create ∧
    (((run { tree := NewLSMTree, fs := noFiles }
      [Op.set [97] [49], Op.flush okEnv, Op.set [97] [50]]).tree.Flush { createOk := false, room := none }
      (run { tree := NewLSMTree, fs := noFiles }
      [Op.set [97] [49], Op.flush okEnv, Op.set [97] [50]]).fs).2.1 =
      (run { tree := NewLSMTree, fs := noFiles }
      [Op.set [97] [49], Op.flush okEnv, Op.set [97] [50]]).tree ∧
    (∀ s ∈ (run { tree := NewLSMTree, fs := noFiles }
      [Op.set [97] [49], Op.flush okEnv, Op.set [97] [50]]).tree.sstables, ∀ k,
      s.Get ((run { tree := NewLSMTree, fs := noFiles }
      [Op.set [97] [49], Op.flush okEnv, Op.set [97] [50]]).tree.Flush { createOk := false, room := none }
        (run { tree := NewLSMTree, fs := noFiles }
      [Op.set [97] [49], Op.flush okEnv, Op.set [97] [50]]).fs).2.2 k =
      s.Get (run { tree := NewLSMTree, fs := noFiles }
      [Op.set [97] [49], Op.flush okEnv, Op.set [97] [50]]).fs k) ∧
    (∀ k, ((run { tree := NewLSMTree, fs := noFiles }
      [Op.set [97] [49], Op.flush okEnv, Op.set [97] [50]]).tree.Flush { createOk := false, room := none }
      (run { tree := NewLSMTree, fs := noFiles }
      [Op.set [97] [49], Op.flush okEnv, Op.set [97] [50]]).fs).2.1.Get
        ((run { tree := NewLSMTree, fs := noFiles }
      [Op.set [97] [49], Op.flush okEnv, Op.set [97] [50]]).tree.Flush { createOk := false, room := none }
          (run { tree := NewLSMTree, fs := noFiles }
      [Op.set [97] [49], Op.flush okEnv, Op.set [97] [50]]).fs).2.2 k =
      (run { tree := NewLSMTree, fs := noFiles }
      [Op.set [97] [49], Op.flush okEnv, Op.set [97] [50]]).tree.Get
        (run { tree := NewLSMTree, fs := noFiles }
      [Op.set [97] [49], Op.flush okEnv, Op.set [97] [50]]).fs k)) :=
  ⟨⟨noFiles, _, rfl⟩, by decide,
   C8_failed_flush_changes_nothing _ { createOk := false, room := none } Error.create
     ⟨noFiles, _, rfl⟩ (by decide)⟩

/-- C9: the postcondition of a successful flush.  When `LSMTree.Flush`
returns `nil` on a tree with `n` segments, the tree afterwards holds `n + 1`
segments: the first `n` are the previous segments in their order, the last
is the segment that `NewSSTable` builds from the file just written, and the
buffer is empty, `MemTable.Get` returning `("", false)` for every key. -/
theorem C9_flush_postcondition (l : LSMTree) (env : WriteEnv) (fs : FS)
    (hf : (l.Flush env fs).1 = none) :
    ∃ sst, NewSSTable (segmentName l.sstables.length) (l.Flush env fs).2.2 = Except.ok sst ∧
      (l.Flush env fs).2.2 = (l.memTable.Flush (segmentName l.sstables.length) env fs).2 ∧
      (l.Flush env fs).2.1.sstables = l.sstables ++ [sst] ∧
      (l.Flush env fs).2.1.sstables.length = l.sstables.length + 1 ∧
      (l.Flush env fs).2.1.sstables.take l.sstables.length = l.sstables ∧
      (l.Flush env fs).2.1.memTable = NewMemTable ∧
      ∀ k, (l.Flush env fs).2.1.memTable.Get k = ([], false) := by
  obtain ⟨sst, _, hn, hfl⟩ := l.Flush_ok env fs hf
  refine ⟨sst, ?_, ?_, ?_, ?_, ?_, ?_, ?_⟩ <;> rw [hfl]
  · exact hn
  · simp
  · simp
  · intro k
    rfl

/-- An instance of the postcondition: the tree after `Set("a","1")`, flushed
on the empty file system. -/
theorem C9_flush_postcondition_witness :
    ((NewLSMTree.Set [97] [49]).Flush okEnv noFiles).1 = none ∧
    ∃ sst, NewSSTable (segmentName (NewLSMTree.Set [97] [49]).sstables.length)
        ((NewLSMTree.Set [97] [49]).Flush okEnv noFiles).2.2 = Except.ok sst ∧
      ((NewLSMTree.Set [97] [49]).Flush okEnv noFiles).2.2 =
        ((NewLSMTree.Set [97] [49]).memTable.Flush
          (segmentName (NewLSMTree.Set [97] [49]).sstables.length) okEnv noFiles).2 ∧
      ((NewLSMTree.Set [97] [49]).Flush okEnv noFiles).2.1.sstables =
        (NewLSMTree.Set [97] [49]).sstables ++ [sst] ∧
      ((NewLSMTree.Set [97] [49]).Flush okEnv noFiles).2.1.sstables.length =
        (NewLSMTree.Set [97] [49]).sstables.length + 1 ∧
      ((NewLSMTree.Set [97] [49]).Flush okEnv noFiles).2.1.sstables.take
        (NewLSMTree.Set [97] [49]).sstables.length = (NewLSMTree.Set [97] [49]).sstables ∧
      ((NewLSMTree.Set [97] [49]).Flush okEnv noFiles).2.1.memTable = NewMemTable ∧
      ∀ k, ((NewLSMTree.Set [97] [49]).Flush okEnv noFiles).2.1.memTable.Get k =
        ([], false) :=
  ⟨by decide, C9_flush_postcondition (NewLSMTree.Set [97] [49]) okEnv noFiles (by decide)⟩

/-- C10: segment file names never collide.  In every state reached from
`NewLSMTree` by `Set`, `Get` and `Flush` calls, the segment at position `i`
has the file name `"sstable_" + decimal(i) + ".txt"`, the names of the
segments are pairwise distinct, and the name that the next `Flush` chooses
is the name of no segment. -/
theorem C10_segment_names_distinct (st : State) (hr : Reachable st) :
    (∀ (i : Nat) (s : SSTable), st.tree.sstables[i]? = some s →
      s.filename = segmentName i) ∧
    (st.tree.sstables.map SSTable.filename).Nodup ∧
    (∀ s ∈ st.tree.sstables, s.filename ≠ segmentName st.tree.sstables.length) := by
  have h := hr.filenames
  refine ⟨?_, ?_, filenames_ne_next _ h⟩
  · intro i s hs
    have hi : i < st.tree.sstables.length := (List.getElem?_eq_some.mp hs).1
    have e1 : (st.tree.sstables.map SSTable.filename)[i]? = some s.filename := by
      rw [List.getElem?_map, hs]
      rfl
    rw [h, List.getElem?_map, List.getElem?_range hi] at e1
    exact (Option.some.inj e1).symm
  · rw [h]
    exact List.Nodup.map (fun a b hab => segmentName_injective hab) (List.nodup_range _)

/-- An instance of the naming: the state after `Set("a","1")`, `Flush`,
`Flush` on the empty file system, with the segments `sstable_0.txt` and
`sstable_1.txt`. -/
theorem C10_segment_names_distinct_witness :
    Reachable (run { tree := NewLSMTree, fs := noFiles }
      [Op.set [97] [49], Op.flush okEnv, Op.flush okEnv]) ∧
    ((∀ (i : Nat) (s : SSTable),
      (run { tree := NewLSMTree, fs := noFiles }
        [Op.set [97] [49], Op.flush okEnv, Op.flush okEnv]).tree.sstables[i]? = some s →
      s.filename = segmentName i) ∧
    ((run { tree := NewLSMTree, fs := noFiles }
      [Op.set [97] [49], Op.flush okEnv, Op.flush okEnv]).tree.sstables.map
        SSTable.filename).Nodup ∧
    (∀ s ∈ (run { tree := NewLSMTree, fs := noFiles }
      [Op.set [97] [49], Op.flush okEnv, Op.flush okEnv]).tree.sstables,
      s.filename ≠ segmentName (run { tree := NewLSMTree, fs := noFiles }
        [Op.set [97] [49], Op.flush okEnv, Op.flush okEnv]).tree.sstables.length)) :=
  ⟨⟨noFiles, _, rfl⟩, C10_segment_names_distinct _ ⟨noFiles, _, rfl⟩⟩

/-! ## The scanner and lines that are too long -/

theorem scanLines_err (ls : List Str) :
    (scanLines ls).2 = none ∨ (scanLines ls).2 = some Error.tooLong := by
  induction ls with
  | nil => exact Or.inl rfl
  | cons l ls ih =>
    rw [scanLines]
    split_ifs
    · exact Or.inr rfl
    · exact ih

/-- A file with a line of `MaxScanTokenSize` bytes or more cannot be opened as
a segment: the scanner stops with `bufio.ErrTooLong`. -/
theorem NewSSTable_long_line (f : Str) (fs : FS) (ls : List Str)
    (hfs : fs f = some (joinLines ls)) (hnl : ∀ l ∈ ls, newline ∉ l)
    (hlong : ∃ l ∈ ls, MaxScanTokenSize ≤ l.length) :
    NewSSTable f fs = Except.error Error.tooLong := by
  have hs : (scanLines ls).2 = some Error.tooLong := by
    rcases scanLines_err ls with h | h
    · rw [scanLines_ok_iff] at h
      obtain ⟨l, hl, hlen⟩ := hlong
      have := h l hl
      omega
    · exact h
  unfold NewSSTable SSTable.buildIndex
  rw [hfs]
  dsimp only
  rw [rawLines_joinLines ls hnl, hs]

/-- A file whose lines are all shorter than `MaxScanTokenSize` is opened: the
index is built from its lines, each without its final `\r`. -/
theorem NewSSTable_short_lines (f : Str) (fs : FS) (content : Str)
    (hfs : fs f = some content)
    (h : ∀ l ∈ rawLines content, l.length < MaxScanTokenSize) :
    NewSSTable f fs = Except.ok
      (indexLines { filename := f, index := [], offsets := [] }
        ((rawLines content).map dropCR) 0) := by
  have hs : (scanLines (rawLines content)).2 = none := (scanLines_ok_iff _).mpr h
  unfold NewSSTable SSTable.buildIndex
  rw [hfs]
  dsimp only
  rw [hs, scanLines_ok _ hs]

theorem NewSSTable_lines (f : Str) (fs : FS) (sst : SSTable)
    (h : NewSSTable f fs = Except.ok sst) :
    ∃ content, fs f = some content ∧
      (∀ l ∈ rawLines content, l.length < MaxScanTokenSize) ∧
      sst = indexLines { filename := f, index := [], offsets := [] }
        ((rawLines content).map dropCR) 0 := by
  unfold NewSSTable SSTable.buildIndex at h
  cases hf : fs f with
  | none => rw [hf] at h; simp at h
  | some content =>
    rw [hf] at h
    dsimp only at h
    cases hs : (scanLines (rawLines content)).2 with
    | some err => rw [hs] at h; simp at h
    | none =>
      rw [hs] at h
      simp only [Except.ok.injEq] at h
      refine ⟨content, rfl, (scanLines_ok_iff _).mp hs, ?_⟩
      rw [← h, scanLines_ok _ hs]

/-! ## The index of any file -/

theorem Split_length_two_iff (sep : Nat) (s : Str) :
    2 ≤ (Split sep s).length ↔ sep ∈ s := by
  induction s with
  | nil => simp [Split]
  | cons c cs ih =>
    by_cases hc : c = sep
    · have := Split_length_pos sep cs
      simp only [Split, hc, if_true, List.length_cons, List.mem_cons, true_or, iff_true]
      omega
    · have hne : ¬ sep = c := fun e => hc e.symm
      simp only [Split, hc, if_false, List.mem_cons, hne, false_or]
      rw [← ih]
      cases hs : Split sep cs with
      | nil => exact absurd hs (Split_ne_nil _ _)
      | cons p ps => simp

theorem Split_not_mem (sep : Nat) (s : Str) : ∀ p ∈ Split sep s, sep ∉ p := by
  induction s with
  | nil => simp [Split]
  | cons c cs ih =>
    by_cases hc : c = sep
    · simp only [Split, hc, if_true, List.mem_cons]
      rintro p (rfl | hp)
      · simp
      · exact ih p hp
    · have hne : ¬ sep = c := fun e => hc e.symm
      simp only [Split, hc, if_false]
      cases hs : Split sep cs with
      | nil => exact absurd hs (Split_ne_nil _ _)
      | cons q qs =>
        rw [hs] at ih
        simp only [List.mem_cons]
        rintro p (rfl | hp)
        · simp only [List.mem_cons, hne, false_or]
          exact ih q (List.mem_cons_self _ _)
        · exact ih p (List.mem_cons_of_mem _ hp)

theorem rawLines_not_mem (content : Str) : ∀ l ∈ rawLines content, newline ∉ l := by
  intro l hl
  unfold rawLines at hl
  dsimp only at hl
  split_ifs at hl
  · exact Split_not_mem _ _ l (List.mem_of_mem_dropLast hl)
  · exact Split_not_mem _ _ l hl

theorem dropCR_cases (l : Str) : dropCR l = l ∨ l = dropCR l ++ [carriageReturn] := by
  unfold dropCR
  split_ifs with h
  · right
    obtain ⟨ys, rfl⟩ := List.getLast?_eq_some_iff.mp h
    simp
  · exact Or.inl rfl

theorem mem_dropCR (l : Str) (x : Nat) (h : x ∈ dropCR l) : x ∈ l := by
  rcases dropCR_cases l with e | e
  · rwa [e] at h
  · rw [e]
    exact List.mem_append_left _ h

theorem colon_mem_dropCR (l : Str) : colon ∈ dropCR l ↔ colon ∈ l := by
  constructor
  · exact mem_dropCR l colon
  · intro h
    rcases dropCR_cases l with e | e
    · rwa [e]
    · rw [e, List.mem_append, List.mem_singleton] at h
      rcases h with h | h
      · exact h
      · exact absurd h (by decide)

theorem takeWhile_append_of_mem (a b : Str) (h : colon ∈ a) :
    (a ++ b).takeWhile (fun c => c ≠ colon) = a.takeWhile (fun c => c ≠ colon) := by
  induction a with
  | nil => simp at h
  | cons c cs ih =>
    by_cases hc : c = colon
    · simp [List.takeWhile_cons, hc]
    · have hne : ¬ colon = c := fun e => hc e.symm
      simp only [List.mem_cons, hne, false_or] at h
      simp only [List.cons_append, List.takeWhile_cons, ne_eq, hc, not_false_eq_true,
        decide_True, if_true, ih h]

theorem takeWhile_dropCR (l : Str) (h : colon ∈ l) :
    (dropCR l).takeWhile (fun c => c ≠ colon) = l.takeWhile (fun c => c ≠ colon) := by
  rcases dropCR_cases l with e | e
  · rw [e]
  · have h2 := (colon_mem_dropCR l).mpr h
    conv_rhs => rw [e]
    rw [takeWhile_append_of_mem _ _ h2]

/-- The index that the loop of `buildIndex` builds: one key for each line with
a `:`, the text of the line before its first `:`, in the order of the
lines. -/
theorem indexLines_index (lines : List Str) : ∀ (s : SSTable) (offset : Nat),
    (indexLines s lines offset).index =
      s.index ++ (lines.filter (fun l => decide (colon ∈ l))).map
        (fun l => l.takeWhile (fun c => c ≠ colon)) := by
  induction lines with
  | nil => intro s offset; simp [indexLines]
  | cons l ls ih =>
    intro s offset
    rw [indexLines, ih]
    by_cases hc : colon ∈ l
    · have h2 : 2 ≤ (Split colon l).length := (Split_length_two_iff _ _).mpr hc
      simp only [if_pos h2, List.filter_cons, hc, decide_True, if_true, List.map_cons,
        Split_headD, List.append_assoc, List.singleton_append]
    · have h2 : ¬ 2 ≤ (Split colon l).length := fun h => hc ((Split_length_two_iff _ _).mp h)
      simp only [if_neg h2, List.filter_cons, hc, decide_False, Bool.false_eq_true, if_false]

theorem indexLines_lengths (lines : List Str) : ∀ (s : SSTable) (offset : Nat),
    s.index.length = s.offsets.length →
    (indexLines s lines offset).index.length = (indexLines s lines offset).offsets.length := by
  induction lines with
  | nil => intro s offset h; exact h
  | cons l ls ih =>
    intro s offset h
    rw [indexLines]
    apply ih
    split_ifs
    · simp [h]
    · exact h

theorem index_keys_dropCR (ls : List Str) :
    ((ls.map dropCR).filter (fun l => decide (colon ∈ l))).map
        (fun l => l.takeWhile (fun c => c ≠ colon)) =
      (ls.filter (fun l => decide (colon ∈ l))).map
        (fun l => l.takeWhile (fun c => c ≠ colon)) := by
  induction ls with
  | nil => rfl
  | cons l ls ih =>
    by_cases hc : colon ∈ l
    · have h2 := (colon_mem_dropCR l).mpr hc
      simp only [List.map_cons, List.filter_cons, hc, h2, decide_True, if_true, ih,
        takeWhile_dropCR l hc]
    · have h2 : colon ∉ dropCR l := fun h => hc ((colon_mem_dropCR l).mp h)
      simp only [List.map_cons, List.filter_cons, hc, h2, decide_False, Bool.false_eq_true,
        if_false, ih]

/-- The index of a segment that `NewSSTable` opened: one key for each line of
the file with a `:`, the text of the line before its first `:`, in file
order; and as many offsets as keys. -/
theorem NewSSTable_index (f : Str) (fs : FS) (sst : SSTable)
    (h : NewSSTable f fs = Except.ok sst) :
    ∃ content, fs f = some content ∧
      sst.index = ((rawLines content).filter (fun l => decide (colon ∈ l))).map
        (fun l => l.takeWhile (fun c => c ≠ colon)) ∧
      sst.index.length = sst.offsets.length := by
  obtain ⟨content, hf, _, hs⟩ := NewSSTable_lines f fs sst h
  refine ⟨content, hf, ?_, ?_⟩
  · rw [hs, indexLines_index, index_keys_dropCR]
    rfl
  · rw [hs]
    exact indexLines_lengths _ _ _ rfl

theorem NewSSTable_index_newline (f : Str) (fs : FS) (sst : SSTable)
    (h : NewSSTable f fs = Except.ok sst) : ∀ k ∈ sst.index, newline ∉ k := by
  obtain ⟨content, _, hi, _⟩ := NewSSTable_index f fs sst h
  intro k hk hn
  rw [hi, List.mem_map] at hk
  obtain ⟨l, hl, rfl⟩ := hk
  have hl2 : l ∈ rawLines content := List.mem_of_mem_filter hl
  exact rawLines_not_mem content l hl2 ((List.takeWhile_sublist _).subset hn)

/-! ## A lookup never indexes out of range -/

theorem ReadString_mem_newline : ∀ (s line : Str), ReadString s = some line → newline ∈ line := by
  intro s
  induction s with
  | nil => intro line h; simp [ReadString] at h
  | cons c cs ih =>
    intro line h
    rw [ReadString] at h
    split_ifs at h with hc
    · simp only [Option.some.injEq] at h
      rw [← h, hc]
      exact List.mem_singleton_self _
    · cases hr : ReadString cs with
      | none => rw [hr] at h; simp at h
      | some l =>
        rw [hr] at h
        simp only [Option.some.injEq] at h
        rw [← h]
        exact List.mem_cons_of_mem _ (ih l hr)

/-- A line that `ReadString` returned and whose first field is a key without
`\n` has a second field. -/
theorem Split_second_field (s line key : Str) (hr : ReadString s = some line)
    (hk : newline ∉ key) (hh : (Split colon line).headD [] = key) :
    2 ≤ (Split colon line).length := by
  rw [Split_length_two_iff]
  by_contra hc
  rw [Split_of_not_mem colon line hc] at hh
  simp only [List.headD_cons] at hh
  rw [← hh] at hk
  exact hk (ReadString_mem_newline s line hr)

/-- A segment with as many offsets as keys and no `\n` in its keys answers
every lookup: no access is out of range, whatever the file holds. -/
theorem SSTable.Get_returns (s : SSTable) (hlen : s.index.length = s.offsets.length)
    (hnl : ∀ k ∈ s.index, newline ∉ k) (fs : FS) (key : Str) :
    ∃ r, s.Get fs key = some r := by
  unfold SSTable.Get
  dsimp only
  split_ifs with hc
  · have hkey : key ∈ s.index := by
      rw [← hc.2, List.getD_eq_getElem _ _ hc.1]
      exact List.getElem_mem _
    cases hf : fs s.filename with
    | none => exact ⟨_, rfl⟩
    | some content =>
      dsimp only
      have hi : SearchStrings s.index key < s.offsets.length := by rw [← hlen]; exact hc.1
      rw [List.get?_eq_get hi]
      dsimp only
      cases hr : ReadString (content.drop (s.offsets.get ⟨SearchStrings s.index key, hi⟩)) with
      | none => exact ⟨_, rfl⟩
      | some line =>
        dsimp only
        split_ifs with hh
        · have h2 := Split_second_field _ line key hr (hnl key hkey) hh
          rw [List.get?_eq_get (by omega)]
          exact ⟨_, rfl⟩
        · exact ⟨_, rfl⟩
  · exact ⟨_, rfl⟩

/-! ## The length of a trimmed string -/

theorem trimLeftLoop_length : ∀ (fuel : Nat) (s : Str), (trimLeftLoop fuel s).length ≤ s.length := by
  intro fuel
  induction fuel with
  | zero => intro s; exact le_refl _
  | succ n ih =>
    intro s
    cases s with
    | nil => exact le_refl _
    | cons c cs =>
      rw [trimLeftLoop]
      split_ifs
      · exact le_trans (ih _) (List.drop_sublist _ _).length_le
      · exact le_refl _

theorem TrimRightFunc_length (s : Str) : (TrimRightFunc s).length ≤ s.length := by
  unfold TrimRightFunc
  cases lastIndexLoop s (s.length + 1) s.length with
  | none => exact Nat.zero_le _
  | some i =>
    dsimp only
    split_ifs <;> exact (List.take_sublist _ _).length_le

theorem TrimSpace_length (s : Str) : (TrimSpace s).length ≤ s.length :=
  le_trans (TrimRightFunc_length _) (trimLeftLoop_length _ _)

theorem takeWhile_length_lt (v : Str) (h : colon ∈ v) :
    (v.takeWhile (fun c => c ≠ colon)).length < v.length := by
  induction v with
  | nil => simp at h
  | cons c cs ih =>
    by_cases hc : c = colon
    · simp [List.takeWhile_cons, hc]
    · have hne : ¬ colon = c := fun e => hc e.symm
      simp only [List.mem_cons, hne, false_or] at h
      have := ih h
      rw [List.takeWhile_cons]
      simp only [ne_eq, hc, not_false_eq_true, decide_True, if_true, List.length_cons]
      simp only [ne_eq] at this
      omega

theorem takeWhile_of_not_mem (v : Str) (h : colon ∉ v) :
    v.takeWhile (fun c => c ≠ colon) = v := by
  rw [List.takeWhile_eq_self_iff]
  intro x hx
  have : x ≠ colon := fun e => h (e ▸ hx)
  simpa using this

/-- What a lookup returns for the value `v` of an entry: the part of `v`
before its first `:`, trimmed. -/
theorem TrimSpace_field (v : Str) :
    TrimSpace ((v ++ [newline]).takeWhile (fun c => c ≠ colon)) =
      TrimSpace (v.takeWhile (fun c => c ≠ colon)) := by
  by_cases h : colon ∈ v
  · rw [takeWhile_append_of_mem v _ h]
  · rw [takeWhile_value v h, TrimSpace_append_newline, takeWhile_of_not_mem v h]

theorem TrimSpace_field_eq_iff (v : Str) :
    TrimSpace (v.takeWhile (fun c => c ≠ colon)) = v ↔ colon ∉ v ∧ Trimmed v := by
  constructor
  · intro h
    have hc : colon ∉ v := by
      intro hc
      have h1 := TrimSpace_length (v.takeWhile (fun c => c ≠ colon))
      have h2 := takeWhile_length_lt v hc
      rw [h] at h1
      omega
    rw [takeWhile_of_not_mem v hc] at h
    exact ⟨hc, h⟩
  · rintro ⟨hc, ht⟩
    rw [takeWhile_of_not_mem v hc]
    exact ht

/-! ## Flushing an empty buffer -/

theorem MemTable.Flush_empty (f : Str) (env : WriteEnv) (fs : FS) (h : env.createOk = true) :
    NewMemTable.Flush f env fs = (none, fs.put f []) := by
  unfold MemTable.Flush
  rw [if_neg (by rw [h]; decide)]
  rfl

theorem NewSSTable_empty (f : Str) (fs : FS) :
    NewSSTable f (fs.put f []) = Except.ok { filename := f, index := [], offsets := [] } := by
  unfold NewSSTable SSTable.buildIndex
  rw [FS.put_same]
  rfl

/-- The flush of an empty buffer, when it returns `nil`: no write is issued,
the file is empty and the new segment has an empty index. -/
theorem LSMTree.Flush_of_empty_buffer (l : LSMTree) (env : WriteEnv) (fs : FS)
    (hm : l.memTable = NewMemTable) (hf : (l.Flush env fs).1 = none) :
    l.Flush env fs =
      (none, { memTable := NewMemTable,
               sstables := l.sstables ++
                 [{ filename := segmentName l.sstables.length, index := [], offsets := [] }] },
        fs.put (segmentName l.sstables.length) []) := by
  have hc : env.createOk = true := by
    cases hcr : env.createOk with
    | true => rfl
    | false =>
      exfalso
      obtain ⟨sst, h1, _, _⟩ := l.Flush_ok env fs hf
      unfold MemTable.Flush at h1
      rw [if_pos hcr] at h1
      simp at h1
  obtain ⟨sst, _, hn, hfl⟩ := l.Flush_ok env fs hf
  rw [hm, MemTable.Flush_empty _ env fs hc] at hn hfl
  dsimp only at hn hfl
  rw [NewSSTable_empty] at hn
  simp only [Except.ok.injEq] at hn
  rw [hfl, ← hn]

/-! ## Long lines -/

theorem Plain_replicate (n : Nat) : Plain (List.replicate n 97) := by
  unfold Plain
  refine ⟨?_, ?_, ?_⟩ <;> intro h <;> exact absurd (List.eq_of_mem_replicate h) (by decide)

theorem lineOf_length (e : Str × Str) : (lineOf e).length = e.1.length + 1 + e.2.length := by
  unfold lineOf
  rw [List.length_append, List.length_cons]
  omega

theorem lineOf_replicate_long (n : Nat) (v : Str) (h : MaxScanTokenSize ≤ n) :
    MaxScanTokenSize ≤ (lineOf (List.replicate n 97, v)).length := by
  rw [lineOf_length, List.length_replicate]
  omega

/-! ## The properties of the specification, continued -/

/-- C11: flushing an empty buffer is harmless.  In a state reached from
`NewLSMTree` whose buffer is empty, when `Flush` returns `nil` (in any
environment: no write is issued) the file written is empty, the new segment
has an empty index and its `SSTable.Get` returns `("", false)` for every key
on every file system, and `LSMTree.Get` returns for every key what it
returned before the flush. -/
theorem C11_empty_flush_harmless (st : State) (env : WriteEnv) (hr : Reachable st)
    (hm : st.tree.memTable = NewMemTable) (hf : (st.tree.Flush env st.fs).1 = none) :
    (st.tree.Flush env st.fs).2.2 (segmentName st.tree.sstables.length) = some [] ∧
    (∃ sst, (st.tree.Flush env st.fs).2.1.sstables = st.tree.sstables ++ [sst] ∧
      sst.filename = segmentName st.tree.sstables.length ∧ sst.index = [] ∧
      ∀ (fs : FS) (k : Str), sst.Get fs k = some ([], false)) ∧
    (∀ k, (st.tree.Flush env st.fs).2.1.Get (st.tree.Flush env st.fs).2.2 k =
      st.tree.Get st.fs k) := by
  have hfl := st.tree.Flush_of_empty_buffer env st.fs hm hf
  have hsearch := fun k => st.tree.Flush_search env st.fs k hr.filenames
  rw [hfl] at hsearch ⊢
  dsimp only at hsearch ⊢
  refine ⟨FS.put_same _ _ _, ⟨_, rfl, rfl, rfl, ?_⟩, ?_⟩
  · intro fs k
    exact SSTable.Get_absent _ fs k (by simp)
  · intro k
    rw [LSMTree.Get_of_absent _ _ _ (by rfl), LSMTree.Get_of_absent _ _ _ (by rw [hm]; rfl)]
    dsimp only
    rw [List.reverse_append, List.reverse_singleton, List.singleton_append, searchSSTables,
      SSTable.Get_absent _ _ k (by simp)]
    exact hsearch k

/-- An instance of the empty flush: after `Set("a","1")` and `Flush` on the
empty file system the buffer is empty; it is flushed again on a file that
accepts no byte. -/
theorem C11_empty_flush_harmless_witness :
    Reachable (run { tree := NewLSMTree, fs := noFiles } [Op.set [97] [49], Op.flush okEnv]) ∧
    (run { tree := NewLSMTree, fs := noFiles }
      [Op.set [97] [49], Op.flush okEnv]).tree.memTable = NewMemTable ∧
    ((run { tree := NewLSMTree, fs := noFiles } [Op.set [97] [49], Op.flush okEnv]).tree.Flush
      { createOk := true, room := some 0 }
      (run { tree := NewLSMTree, fs := noFiles } [Op.set [97] [49], Op.flush okEnv]).fs).1 =
        none ∧
    (∀ k,
      ((run { tree := NewLSMTree, fs := noFiles } [Op.set [97] [49], Op.flush okEnv]).tree.Flush
        { createOk := true, room := some 0 }
        (run { tree := NewLSMTree, fs := noFiles }
          [Op.set [97] [49], Op.flush okEnv]).fs).2.1.Get
        ((run { tree := NewLSMTree, fs := noFiles }
          [Op.set [97] [49], Op.flush okEnv]).tree.Flush
          { createOk := true, room := some 0 }
          (run { tree := NewLSMTree, fs := noFiles }
            [Op.set [97] [49], Op.flush okEnv]).fs).2.2 k =
      (run { tree := NewLSMTree, fs := noFiles } [Op.set [97] [49], Op.flush okEnv]).tree.Get
        (run { tree := NewLSMTree, fs := noFiles } [Op.set [97] [49], Op.flush okEnv]).fs k) :=
  ⟨⟨noFiles, _, rfl⟩, by decide, by decide,
   (C11_empty_flush_harmless _ { createOk := true, room := some 0 } ⟨noFiles, _, rfl⟩
     (by decide) (by decide)).2.2⟩

/-- C12 as stated fails: the file with the one line `key:v`, its key made of
65536 letters `a`, is well formed (one key, no `:`, no line terminator, no
white space at the ends of the value), and `NewSSTable` does not open it: the
scanner stops with `bufio.ErrTooLong`. -/
theorem C12_long_line_not_opened :
    Ascending ([(List.replicate 65536 97, [118])].map Prod.fst) ∧
    (∀ e ∈ [((List.replicate 65536 97 : Str), ([118] : Str))],
      Plain e.1 ∧ Plain e.2 ∧ Trimmed e.2) ∧
    NewSSTable [102]
      (noFiles.put [102] (joinLines ([(List.replicate 65536 97, [118])].map lineOf))) =
      Except.error Error.tooLong := by
  refine ⟨List.pairwise_singleton _ _, ?_, ?_⟩
  · intro e he
    rw [List.mem_singleton] at he
    subst he
    exact ⟨Plain_replicate _, (by decide : Plain [118]), (by decide : Trimmed [118])⟩
  · apply NewSSTable_long_line _ _ [lineOf (List.replicate 65536 97, [118])]
    · exact FS.put_same _ _ _
    · intro l hl
      rw [List.mem_singleton] at hl
      subst hl
      exact newline_not_mem_lineOf _ (Plain_replicate _).2.1 (by decide : newline ∉ [118])
    · exact ⟨_, List.mem_singleton_self _, lineOf_replicate_long _ _ (by decide)⟩

/-- C12, amended: segment lookup over a well-formed file whose lines are all
shorter than 65536 bytes is the map lookup.  For a file whose content is the
lines `k_1:v_1\n ... k_n:v_n\n`, the keys strictly ascending in byte-wise
order, keys and values without `:` and without a line terminator, values
without leading or trailing white space, and every line `k_i:v_i` shorter
than `bufio.MaxScanTokenSize`: `NewSSTable` succeeds, `SSTable.Get(k_i)`
returns `(v_i, true)`, and `SSTable.Get(k)` returns `("", false)` for a key
`k` that is none of the `k_i`. -/
theorem C12_lookup_well_formed_file (f : Str) (fs : FS) (es : List (Str × Str))
    (hasc : Ascending (es.map Prod.fst))
    (hall : ∀ e ∈ es, Plain e.1 ∧ Plain e.2 ∧ Trimmed e.2)
    (hlen : ∀ e ∈ es, (lineOf e).length < MaxScanTokenSize)
    (hfs : fs f = some (joinLines (es.map lineOf))) :
    ∃ sst, NewSSTable f fs = Except.ok sst ∧
      (∀ e ∈ es, sst.Get fs e.1 = some (e.2, true)) ∧
      (∀ k, k ∉ es.map Prod.fst → sst.Get fs k = some ([], false)) := by
  obtain ⟨sst, hn⟩ := NewSSTable_entries_ok f fs es (fun e he => (hall e he).1.2.1)
    (fun e he => (hall e he).2.1.2.1) hfs hlen
  have hsst := NewSSTable_entries f fs es (fun e he => ⟨(hall e he).1.1, (hall e he).1.2.1⟩)
    (fun e he => (hall e he).2.1.2.1) hfs sst hn
  have hcr : es.map (fun e => lineOf (e.1, dropCR e.2)) = es.map lineOf := by
    apply List.map_congr_left
    intro e he
    rw [dropCR_of_not_mem _ (hall e he).2.1.2.2]
  rw [hcr] at hsst
  refine ⟨sst, hn, ?_, ?_⟩
  · intro e he
    obtain ⟨pre, post, hsplit⟩ := List.append_of_mem he
    have hkv := hall e he
    rcases e with ⟨k, v⟩
    rw [hsst]
    subst hsplit
    rw [SSTable.Get_entry f fs pre post k v hasc ⟨hkv.1.1, hkv.1.2.1⟩ hkv.2.1.2.1 hfs,
      TrimSpace_value v hkv.2.1.1 hkv.2.2]
  · intro k hk
    apply SSTable.Get_absent
    rw [hsst]
    exact hk

/-- An instance of the amended C12: the file `"a:1\nc:3\n"`. -/
theorem C12_lookup_well_formed_file_witness :
    Ascending ([(([97] : Str), ([49] : Str)), ([99], [51])].map Prod.fst) ∧
    (∀ e ∈ [(([97] : Str), ([49] : Str)), ([99], [51])], Plain e.1 ∧ Plain e.2 ∧ Trimmed e.2) ∧
    (∀ e ∈ [(([97] : Str), ([49] : Str)), ([99], [51])],
      (lineOf e).length < MaxScanTokenSize) ∧
    noFiles.put [102] (joinLines ([(([97] : Str), ([49] : Str)), ([99], [51])].map lineOf))
      [102] = some (joinLines ([(([97] : Str), ([49] : Str)), ([99], [51])].map lineOf)) ∧
    ∃ sst, NewSSTable [102]
        (noFiles.put [102]
          (joinLines ([(([97] : Str), ([49] : Str)), ([99], [51])].map lineOf))) =
          Except.ok sst ∧
      (∀ e ∈ [(([97] : Str), ([49] : Str)), ([99], [51])],
        sst.Get (noFiles.put [102]
          (joinLines ([(([97] : Str), ([49] : Str)), ([99], [51])].map lineOf))) e.1 =
          some (e.2, true)) ∧
      (∀ k, k ∉ [(([97] : Str), ([49] : Str)), ([99], [51])].map Prod.fst →
        sst.Get (noFiles.put [102]
          (joinLines ([(([97] : Str), ([49] : Str)), ([99], [51])].map lineOf))) k =
          some ([], false)) :=
  ⟨by decide, by decide, by decide, rfl,
   C12_lookup_well_formed_file [102] _ [([97], [49]), ([99], [51])] (by decide) (by decide)
     (by decide) rfl⟩

/-- C13: `MemTable.Flush` does not signal every write failure.  The buffer
holds the entry `("a", "1")`; the file is created and then accepts no byte.
`Flush` returns `nil` and the file is empty, while the serialisation is
`"a:1\n"`: the entry was buffered by `WriteString`, and the error of the
final `writer.Flush()` is not looked at.  In the engine the entry is lost:
after `Set("a","1")` and this `Flush`, `Get("a")` returns absent. -/
theorem C13_flush_error_dropped :
    ((NewMemTable.Set [97] [49]).Flush [102] { createOk := true, room := some 0 } noFiles).1 =
      none ∧
    ((NewMemTable.Set [97] [49]).Flush [102] { createOk := true, room := some 0 } noFiles).2
      [102] = some [] ∧
    (NewMemTable.Set [97] [49]).serialize = [97, 58, 49, 10] ∧
    (NewWriter { content := [], room := some 0 }).WriteString [97, 58, 49, 10] =
      ({ buf := [97, 58, 49, 10], err := false, wr := { content := [], room := some 0 } },
        false) ∧
    (Writer.Flush { buf := [97, 58, 49, 10], err := false,
                    wr := { content := [], room := some 0 } }).2 = true ∧
    (run { tree := NewLSMTree, fs := noFiles }
      [Op.set [97] [49], Op.flush { createOk := true, room := some 0 }]).tree.Get
      (run { tree := NewLSMTree, fs := noFiles }
        [Op.set [97] [49], Op.flush { createOk := true, room := some 0 }]).fs [97] =
      some ([], false) := by
  refine ⟨by decide, by decide, by decide, by decide, by decide, by decide⟩

/-- C14 as stated fails: the file that holds one line of 65536 letters `a`
exists and can be opened, and `NewSSTable` fails on it: the scanner stops
with `bufio.ErrTooLong`. -/
theorem C14_long_line_fails :
    noFiles.put [102] (joinLines [List.replicate 65536 97]) [102] =
      some (joinLines [List.replicate 65536 97]) ∧
    NewSSTable [102] (noFiles.put [102] (joinLines [List.replicate 65536 97])) =
      Except.error Error.tooLong := by
  refine ⟨FS.put_same _ _ _, ?_⟩
  apply NewSSTable_long_line _ _ [List.replicate 65536 97]
  · exact FS.put_same _ _ _
  · intro l hl
    rw [List.mem_singleton] at hl
    subst hl
    exact (Plain_replicate _).2.1
  · refine ⟨_, List.mem_singleton_self _, ?_⟩
    rw [List.length_replicate]
    decide

/-- C14, amended: opening a segment tolerates malformed lines, provided every
line is shorter than 65536 bytes.  For every file that can be opened and
whose lines are all shorter than `bufio.MaxScanTokenSize`, `NewSSTable`
succeeds, and its index holds, in file order, one key for each line that
contains `:`, the text of the line before its first `:`; a line without `:`
adds no entry. -/
theorem C14_index_of_any_file (f : Str) (fs : FS) (content : Str)
    (hfs : fs f = some content)
    (hlen : ∀ l ∈ rawLines content, l.length < MaxScanTokenSize) :
    ∃ sst, NewSSTable f fs = Except.ok sst ∧
      sst.index = ((rawLines content).filter (fun l => decide (colon ∈ l))).map
        (fun l => l.takeWhile (fun c => c ≠ colon)) := by
  have hn := NewSSTable_short_lines f fs content hfs hlen
  refine ⟨_, hn, ?_⟩
  obtain ⟨content2, hf2, hi, _⟩ := NewSSTable_index f fs _ hn
  rw [hfs] at hf2
  rw [hi, Option.some.inj hf2]

/-- An instance of the amended C14: the file `"a:1\nxyz\n\nb:2:3\r\n:\n"`,
whose index is `["a", "b", ""]`. -/
theorem C14_index_of_any_file_witness :
    noFiles.put [102] [97, 58, 49, 10, 120, 121, 122, 10, 10, 98, 58, 50, 58, 51, 13, 10, 58, 10]
      [102] =
      some [97, 58, 49, 10, 120, 121, 122, 10, 10, 98, 58, 50, 58, 51, 13, 10, 58, 10] ∧
    (∀ l ∈ rawLines
        [97, 58, 49, 10, 120, 121, 122, 10, 10, 98, 58, 50, 58, 51, 13, 10, 58, 10],
      l.length < MaxScanTokenSize) ∧
    ∃ sst, NewSSTable [102] (noFiles.put [102]
        [97, 58, 49, 10, 120, 121, 122, 10, 10, 98, 58, 50, 58, 51, 13, 10, 58, 10]) =
        Except.ok sst ∧
      sst.index = ((rawLines
        [97, 58, 49, 10, 120, 121, 122, 10, 10, 98, 58, 50, 58, 51, 13, 10, 58, 10]).filter
          (fun l => decide (colon ∈ l))).map (fun l => l.takeWhile (fun c => c ≠ colon)) :=
  ⟨rfl, by decide, C14_index_of_any_file [102] _ _ rfl (by decide)⟩

/-- C15: the offsets recorded are not exact for a line that ends in `\r\n`.
The file holds `"a:1\r\nb:2\n"`: the line `b:2` begins at byte 5, and the
sum of the length plus one of the line before it, `a:1\r`, is 5.
`NewSSTable` records the offset 4 for the key `"b"`, since the line that the
scanner returns has lost its `\r`; `SSTable.Get("b")` then reads from byte 4
and returns absent. -/
theorem C15_offset_after_crlf :
    NewSSTable [102] (noFiles.put [102] [97, 58, 49, 13, 10, 98, 58, 50, 10]) =
      Except.ok { filename := [102], index := [[97], [98]], offsets := [0, 4] } ∧
    rawLines [97, 58, 49, 13, 10, 98, 58, 50, 10] = [[97, 58, 49, 13], [98, 58, 50]] ∧
    ([97, 58, 49, 13, 10, 98, 58, 50, 10] : Str).drop 5 = [98, 58, 50, 10] ∧
    SSTable.Get { filename := [102], index := [[97], [98]], offsets := [0, 4] }
      (noFiles.put [102] [97, 58, 49, 13, 10, 98, 58, 50, 10]) [98] = some ([], false) :=
  ⟨rfl, by decide, by decide, by decide⟩

/-- C16: exact match only.  For every segment, whatever its index, its
offsets and the file system, and every key that is not a key of its index,
`SSTable.Get` returns `("", false)`: never the value of the key at the
insertion point of the binary search. -/
theorem C16_exact_match_only (s : SSTable) (fs : FS) (key : Str) (h : key ∉ s.index) :
    s.Get fs key = some ([], false) :=
  SSTable.Get_absent s fs key h

/-- An instance of the exact match: the segment of the file `"a:1\nc:3\n"`
and the key `"b"`, which sorts between the two keys of the index. -/
theorem C16_exact_match_only_witness :
    [98] ∉ ({ filename := [102], index := [[97], [99]], offsets := [0, 4] } : SSTable).index ∧
    SSTable.Get { filename := [102], index := [[97], [99]], offsets := [0, 4] }
      (noFiles.put [102] [97, 58, 49, 10, 99, 58, 51, 10]) [98] = some ([], false) :=
  ⟨by decide, C16_exact_match_only _ _ [98] (by decide)⟩

/-- The index of a segment flushed with every write succeeding is sorted.
For every buffer whose keys hold no `:` and no line terminator and whose
values hold no line terminator, when the file is created, every write to it
succeeds and `NewSSTable(f)` opens the file written by `Flush(f)`, the
index is the list of the keys of the buffer in strictly ascending byte-wise
order, each key once, and the binary search finds every key of the index at
its position. -/
theorem flushed_index_sorted_of_reliable (m : MemTable) (f : Str) (env : WriteEnv) (fs : FS)
    (sst : SSTable)
    (hall : m.All Plain (fun v => newline ∉ v ∧ carriageReturn ∉ v))
    (he : env.reliable) (hn : NewSSTable f (m.Flush f env fs).2 = Except.ok sst) :
    sst.index = sortStrings m.keys ∧ Ascending sst.index ∧ sst.index.Nodup ∧
    (∀ k, k ∈ sst.index ↔ (m.Get k).2 = true) ∧
    (∀ k ∈ sst.index, SearchStrings sst.index k < sst.index.length ∧
      sst.index.getD (SearchStrings sst.index k) [] = k) := by
  rw [MemTable.Flush_reliable m f env fs he] at hn
  have hall2 := m.All_mono hall
    (fun s (h : Plain s) => (⟨h.1, h.2.1⟩ : colon ∉ s ∧ newline ∉ s))
    (fun s (h : newline ∉ s ∧ carriageReturn ∉ s) => h.1)
  have hi := (m.segment_index f fs sst hall2 hn).2
  have hasc : Ascending sst.index := by
    rw [hi]
    exact ascending_sortStrings _ m.keys_nodup
  refine ⟨hi, hasc, hasc.nodup, ?_, ?_⟩
  · intro k
    rw [hi, mem_sortStrings, m.mem_keys]
  · intro k hk
    obtain ⟨p, hp, hpk⟩ := List.getElem_of_mem hk
    have hd : sst.index.getD p [] = k := by
      rw [List.getD_eq_getElem _ _ hp, hpk]
    have hs := SearchStrings_found sst.index hasc p hp
    rw [hd] at hs
    rw [hs]
    exact ⟨hp, hd⟩

/-- An instance of the sorted index: the buffer after `Set("b","2")`,
`Set("a","1")`, flushed to `"f"` on the empty file system. -/
theorem flushed_index_sorted_of_reliable_witness :
    ((NewMemTable.Set [98] [50]).Set [97] [49]).All Plain
      (fun v => newline ∉ v ∧ carriageReturn ∉ v) ∧
    okEnv.reliable ∧
    NewSSTable [102] (((NewMemTable.Set [98] [50]).Set [97] [49]).Flush [102] okEnv noFiles).2 =
      Except.ok { filename := [102], index := [[97], [98]], offsets := [0, 4] } ∧
    (({ filename := [102], index := [[97], [98]], offsets := [0, 4] } : SSTable).index =
      sortStrings ((NewMemTable.Set [98] [50]).Set [97] [49]).keys ∧
    Ascending ({ filename := [102], index := [[97], [98]], offsets := [0, 4] } : SSTable).index ∧
    ({ filename := [102], index := [[97], [98]], offsets := [0, 4] } : SSTable).index.Nodup ∧
    (∀ k, k ∈ ({ filename := [102], index := [[97], [98]], offsets := [0, 4] } : SSTable).index ↔
      (((NewMemTable.Set [98] [50]).Set [97] [49]).Get k).2 = true) ∧
    (∀ k ∈ ({ filename := [102], index := [[97], [98]], offsets := [0, 4] } : SSTable).index,
      SearchStrings
        ({ filename := [102], index := [[97], [98]], offsets := [0, 4] } : SSTable).index k <
        ({ filename := [102], index := [[97], [98]], offsets := [0, 4] } : SSTable).index.length ∧
      ({ filename := [102], index := [[97], [98]], offsets := [0, 4] } : SSTable).index.getD
        (SearchStrings
          ({ filename := [102], index := [[97], [98]], offsets := [0, 4] } : SSTable).index k)
        [] = k)) :=
  ⟨by unfold MemTable.All; decide, by decide, rfl,
   flushed_index_sorted_of_reliable ((NewMemTable.Set [98] [50]).Set [97] [49]) [102] okEnv noFiles _
     (by unfold MemTable.All; decide) (by decide) rfl⟩

/-- What a lookup returns for a value with a separator or with white space
around it, after a flush whose writes all succeed.  For every buffer whose
keys hold no `:` and no line terminator and whose values hold no `\n` and no
`\r`, and every entry `(k, v)` of it, when the file is created, every write
to it succeeds and `NewSSTable(f)` opens the file written by `Flush(f)`,
`SSTable.Get(k)` returns `(w, true)` where `w` is the part of `v`
before its first `:` (all of `v` when it has none) without its leading and
trailing white space; and `w = v` exactly when `v` has no `:` and no leading
or trailing white space. -/
theorem lookup_of_flushed_value_of_reliable (m : MemTable) (f : Str) (env : WriteEnv) (fs : FS)
    (sst : SSTable) (k v : Str)
    (hall : m.All Plain (fun v => newline ∉ v ∧ carriageReturn ∉ v))
    (he : env.reliable) (hn : NewSSTable f (m.Flush f env fs).2 = Except.ok sst)
    (hg : m.Get k = (v, true)) :
    sst.Get (m.Flush f env fs).2 k =
      some (TrimSpace (v.takeWhile (fun c => c ≠ colon)), true) ∧
    (TrimSpace (v.takeWhile (fun c => c ≠ colon)) = v ↔ colon ∉ v ∧ Trimmed v) := by
  rw [MemTable.Flush_reliable m f env fs he] at hn ⊢
  have hall2 := m.All_mono hall
    (fun s (h : Plain s) => (⟨h.1, h.2.1⟩ : colon ∉ s ∧ newline ∉ s))
    (fun s (h : newline ∉ s ∧ carriageReturn ∉ s) => h)
  refine ⟨?_, TrimSpace_field_eq_iff v⟩
  dsimp only
  rw [m.segment_get f fs sst hall2 hn k v hg, TrimSpace_field]

/-- An instance of the lookup: the entry `("k", " x:y ")`, for which the
lookup returns `"x"`. -/
theorem lookup_of_flushed_value_of_reliable_witness :
    (NewMemTable.Set [107] [32, 120, 58, 121, 32]).All Plain
      (fun v => newline ∉ v ∧ carriageReturn ∉ v) ∧
    okEnv.reliable ∧
    NewSSTable [102] ((NewMemTable.Set [107] [32, 120, 58, 121, 32]).Flush [102] okEnv
      noFiles).2 = Except.ok { filename := [102], index := [[107]], offsets := [0] } ∧
    (NewMemTable.Set [107] [32, 120, 58, 121, 32]).Get [107] =
      ([32, 120, 58, 121, 32], true) ∧
    (SSTable.Get { filename := [102], index := [[107]], offsets := [0] }
      ((NewMemTable.Set [107] [32, 120, 58, 121, 32]).Flush [102] okEnv noFiles).2 [107] =
      some (TrimSpace (([32, 120, 58, 121, 32] : Str).takeWhile (fun c => c ≠ colon)), true) ∧
    (TrimSpace (([32, 120, 58, 121, 32] : Str).takeWhile (fun c => c ≠ colon)) =
      [32, 120, 58, 121, 32] ↔
      colon ∉ ([32, 120, 58, 121, 32] : Str) ∧ Trimmed [32, 120, 58, 121, 32])) :=
  ⟨by unfold MemTable.All; decide, by decide, rfl, by decide,
   lookup_of_flushed_value_of_reliable (NewMemTable.Set [107] [32, 120, 58, 121, 32]) [102] okEnv
     noFiles _ [107] [32, 120, 58, 121, 32] (by unfold MemTable.All; decide) (by decide) rfl
     (by decide)⟩

/-- C19: `SSTable.Get` never indexes out of range.  For every segment that
`NewSSTable` built from a file, the index and the offsets have the same
length; a line that `ReadString` returned and whose first field is a key of
the index has a second field; and for every file system at lookup time and
every key, `SSTable.Get` returns a result: it does not panic. -/
theorem C19_get_in_range (f : Str) (fs0 : FS) (sst : SSTable)
    (h : NewSSTable f fs0 = Except.ok sst) :
    sst.index.length = sst.offsets.length ∧
    (∀ (s line key : Str), key ∈ sst.index → ReadString s = some line →
      (Split colon line).headD [] = key → 2 ≤ (Split colon line).length) ∧
    (∀ (fs : FS) (key : Str), ∃ r, sst.Get fs key = some r) := by
  obtain ⟨content, _, _, hlen⟩ := NewSSTable_index f fs0 sst h
  have hnl := NewSSTable_index_newline f fs0 sst h
  exact ⟨hlen, fun s line key hk hr hh => Split_second_field s line key hr (hnl key hk) hh,
    fun fs key => sst.Get_returns hlen hnl fs key⟩

/-- An instance of the lookup in range: the segment built from the file
`"a:1\n"`. -/
theorem C19_get_in_range_witness :
    NewSSTable [102] (noFiles.put [102] [97, 58, 49, 10]) =
      Except.ok { filename := [102], index := [[97]], offsets := [0] } ∧
    (({ filename := [102], index := [[97]], offsets := [0] } : SSTable).index.length =
      ({ filename := [102], index := [[97]], offsets := [0] } : SSTable).offsets.length ∧
    (∀ (s line key : Str),
      key ∈ ({ filename := [102], index := [[97]], offsets := [0] } : SSTable).index →
      ReadString s = some line →
      (Split colon line).headD [] = key → 2 ≤ (Split colon line).length) ∧
    (∀ (fs : FS) (key : Str), ∃ r,
      SSTable.Get { filename := [102], index := [[97]], offsets := [0] } fs key = some r)) :=
  ⟨rfl, C19_get_in_range [102] (noFiles.put [102] [97, 58, 49, 10]) _ rfl⟩

/-- C20: `LSMTree.Set` touches one key only.  For every tree, file system,
keys `k` and `k2` with `k2` different from `k`, and value `v`, `Get(k2)`
returns after `Set(k, v)` what it returned before, and the segment list is
unchanged by `Set`. -/
theorem C20_set_touches_one_key (l : LSMTree) (fs : FS) (k k2 v : Str) (h : k2 ≠ k) :
    (l.Set k v).Get fs k2 = l.Get fs k2 ∧ (l.Set k v).sstables = l.sstables := by
  refine ⟨?_, rfl⟩
  unfold LSMTree.Get LSMTree.Set
  dsimp only
  rw [MemTable.Get_Set_other _ _ _ _ h]

/-- An instance of the frame of `Set`: the tree after `Set("a","1")`,
`Flush`, then `Set("b","2")`, read at `"a"`. -/
theorem C20_set_touches_one_key_witness :
    ([97] : Str) ≠ [98] ∧
    (((run { tree := NewLSMTree, fs := noFiles }
      [Op.set [97] [49], Op.flush okEnv]).tree.Set [98] [50]).Get
        (run { tree := NewLSMTree, fs := noFiles } [Op.set [97] [49], Op.flush okEnv]).fs [97] =
      (run { tree := NewLSMTree, fs := noFiles } [Op.set [97] [49], Op.flush okEnv]).tree.Get
        (run { tree := NewLSMTree, fs := noFiles } [Op.set [97] [49], Op.flush okEnv]).fs [97] ∧
    ((run { tree := NewLSMTree, fs := noFiles }
      [Op.set [97] [49], Op.flush okEnv]).tree.Set [98] [50]).sstables =
      (run { tree := NewLSMTree, fs := noFiles } [Op.set [97] [49], Op.flush okEnv]).tree.sstables) :=
  ⟨by decide, C20_set_touches_one_key _ _ [98] [97] [50] (by decide)⟩

/-! ## Writing to a file that may refuse bytes -/

/-- A write appends to the file the bytes it reports as written. -/
theorem File.Write_content (f : File) (p : Str) :
    (f.Write p).1.content = f.content ++ p.take (f.Write p).2.1 := by
  unfold File.Write
  rcases f.room with _ | r
  · simp
  · dsimp only
    split_ifs <;> simp

/-- A `Flush` of the writer loses no byte: what is in the file followed by
what is still buffered stays the same. -/
theorem Writer.Flush_total (b : Writer) :
    b.Flush.1.wr.content ++ b.Flush.1.buf = b.wr.content ++ b.buf := by
  unfold Writer.Flush
  by_cases h1 : b.err = true
  · rw [if_pos h1]
  · by_cases h2 : b.buf.length = 0
    · rw [if_neg h1, if_pos h2]
    · rw [if_neg h1, if_neg h2]
      dsimp only
      by_cases h3 : (b.wr.Write b.buf).2.2 = true ∨ (b.wr.Write b.buf).2.1 < b.buf.length
      · rw [if_pos h3]
        dsimp only
        rw [File.Write_content, List.append_assoc, List.take_append_drop]
      · rw [if_neg h3]
        dsimp only
        rw [File.Write_content, List.append_nil]
        have hn : b.buf.length ≤ (b.wr.Write b.buf).2.1 := by
          by_contra hc
          exact h3 (Or.inr (by omega))
        rw [List.take_of_length_le hn]

theorem writeStringLoop_total : ∀ (fuel : Nat) (b : Writer) (s : Str),
    (writeStringLoop fuel b s).1.wr.content ++ (writeStringLoop fuel b s).1.buf ++
      (writeStringLoop fuel b s).2 = b.wr.content ++ b.buf ++ s := by
  intro fuel
  induction fuel with
  | zero => intro b s; rfl
  | succ n ih =>
    intro b s
    by_cases hc : b.Available < s.length ∧ b.err = false
    · by_cases hb : b.buf.length = 0
      · rw [writeStringLoop, if_pos hc, if_pos hb]
        dsimp only
        rw [ih]
        dsimp only
        have hbuf : b.buf = [] := List.length_eq_zero.mp hb
        rw [File.Write_content, hbuf]
        simp only [List.append_nil, List.append_assoc, List.take_append_drop]
      · rw [writeStringLoop, if_pos hc, if_neg hb]
        dsimp only
        rw [ih, Writer.Flush_total]
        dsimp only
        simp only [List.append_assoc, List.take_append_drop]
    · rw [writeStringLoop, if_neg hc]

/-- A `WriteString` that returns no error has taken the whole string: it is
in the file or in the buffer. -/
theorem Writer.WriteString_total (b : Writer) (s : Str) (h : (b.WriteString s).2 = false) :
    (b.WriteString s).1.wr.content ++ (b.WriteString s).1.buf =
      b.wr.content ++ b.buf ++ s := by
  have h2 := writeStringLoop_total (s.length + 2) b s
  have hx := writeStringLoop_exit b s (s.length + 2) (by omega)
  unfold Writer.WriteString at h ⊢
  dsimp only at h ⊢
  cases he : (writeStringLoop (s.length + 2) b s).1.err with
  | true => rw [he] at h; simp at h
  | false =>
    simp only [Bool.false_eq_true, if_false]
    have hfit : (writeStringLoop (s.length + 2) b s).2.length ≤
        (writeStringLoop (s.length + 2) b s).1.Available := by
      by_contra hc
      exact hx ⟨by omega, he⟩
    rw [List.take_of_length_le hfit, ← List.append_assoc]
    exact h2

theorem writeEntries_total (m : MemTable) : ∀ (keys : List Str) (w : Writer),
    (writeEntries m keys w).2 = false →
    (writeEntries m keys w).1.wr.content ++ (writeEntries m keys w).1.buf =
      w.wr.content ++ w.buf ++ joinLines (keys.map (fun k => k ++ colon :: (m.Get k).1)) := by
  intro keys
  induction keys with
  | nil => intro w _; simp [writeEntries, joinLines]
  | cons k ks ih =>
    intro w h
    rw [writeEntries] at h ⊢
    cases he : (w.WriteString (entryLine k (m.Get k).1)).2 with
    | true => rw [he] at h; simp at h
    | false =>
      rw [he] at h
      simp only [Bool.false_eq_true, if_false] at h ⊢
      rw [ih _ h, Writer.WriteString_total w _ he]
      simp [entryLine, joinLines]

/-- When `MemTable.Flush` returns `nil`, the file holds an initial part of the
serialisation: all of it when the final `writer.Flush()` succeeded, and what
the file accepted otherwise. -/
theorem MemTable.Flush_written (m : MemTable) (f : Str) (env : WriteEnv) (fs : FS)
    (h : (m.Flush f env fs).1 = none) :
    ∃ c t, c ++ t = m.serialize ∧ (m.Flush f env fs).2 = fs.put f c := by
  unfold MemTable.Flush at h ⊢
  dsimp only at h ⊢
  by_cases h1 : env.createOk = false
  · rw [if_pos h1] at h
    simp at h
  · rw [if_neg h1] at h ⊢
    by_cases h2 : (writeEntries m (sortStrings m.keys)
        (NewWriter { content := [], room := env.room })).2 = true
    · rw [if_pos h2] at h
      simp at h
    · rw [if_neg h2]
      refine ⟨_, (writeEntries m (sortStrings m.keys)
        (NewWriter { content := [], room := env.room })).1.Flush.1.buf, ?_, rfl⟩
      have h3 : (writeEntries m (sortStrings m.keys)
          (NewWriter { content := [], room := env.room })).2 = false := by
        simpa using h2
      rw [Writer.Flush_total, writeEntries_total m _ _ h3]
      simp [NewWriter, MemTable.serialize]

/-! ## The lines of a file that was cut short -/

theorem rawLines_of_not_mem (c : Str) (h : newline ∉ c) : ∀ x ∈ rawLines c, x = c := by
  intro x hx
  unfold rawLines at hx
  rw [Split_of_not_mem newline c h] at hx
  dsimp only at hx
  split_ifs at hx
  · simp at hx
  · simpa using hx

theorem rawLines_cons_line (l c : Str) (h : newline ∉ l) :
    rawLines (l ++ newline :: c) = l :: rawLines c := by
  unfold rawLines
  rw [Split_append_sep newline l c h]
  dsimp only
  cases hs : Split newline c with
  | nil => exact absurd hs (Split_ne_nil _ _)
  | cons p ps =>
    rw [List.getLast?_cons_cons, List.dropLast_cons₂]
    split_ifs <;> rfl

/-- Every line of an initial part of a text is an initial part of a line of
the text. -/
theorem rawLines_truncated (ls : List Str) (h : ∀ l ∈ ls, newline ∉ l) :
    ∀ (c t : Str), c ++ t = joinLines ls →
      ∀ x ∈ rawLines c, ∃ l ∈ ls, ∃ u, x ++ u = l := by
  induction ls with
  | nil =>
    intro c t hct x hx
    have hc : c = [] := (List.append_eq_nil.mp hct).1
    rw [hc] at hx
    simp [rawLines, Split] at hx
  | cons l ls ih =>
    intro c t hct x hx
    have hl : newline ∉ l := h l (List.mem_cons_self _ _)
    rw [joinLines, List.append_eq_append_iff] at hct
    rcases hct with ⟨a, ha, _⟩ | ⟨c1, hc1, hrest⟩
    · have hnc : newline ∉ c := fun hm => hl (ha ▸ List.mem_append_left _ hm)
      rw [rawLines_of_not_mem c hnc x hx]
      exact ⟨l, List.mem_cons_self _ _, a, ha.symm⟩
    · cases c1 with
      | nil =>
        rw [List.append_nil] at hc1
        rw [hc1] at hx
        rw [rawLines_of_not_mem l hl x hx]
        exact ⟨l, List.mem_cons_self _ _, [], List.append_nil _⟩
      | cons d c2 =>
        rw [List.cons_append, List.cons.injEq] at hrest
        obtain ⟨hd, hc2⟩ := hrest
        subst hd
        rw [hc1, rawLines_cons_line l c2 hl, List.mem_cons] at hx
        rcases hx with rfl | hx
        · exact ⟨x, List.mem_cons_self _ _, [], List.append_nil _⟩
        · obtain ⟨l2, hl2, u, hu⟩ := ih (fun y hy => h y (List.mem_cons_of_mem _ hy))
            c2 t hc2.symm x hx
          exact ⟨l2, List.mem_cons_of_mem _ hl2, u, hu⟩

theorem takeWhile_key (k x : Str) (h : colon ∉ k) :
    (k ++ colon :: x).takeWhile (fun c => c ≠ colon) = k := by
  induction k with
  | nil => simp [List.takeWhile_cons]
  | cons c cs ih =>
    have hc : c ≠ colon := fun e => h (e ▸ List.mem_cons_self _ _)
    have hcs : colon ∉ cs := fun hm => h (List.mem_cons_of_mem _ hm)
    rw [List.cons_append, List.takeWhile_cons]
    simp only [ne_eq, hc, not_false_eq_true, decide_True, if_true, List.cons.injEq, true_and]
    exact ih hcs

/-- An initial part of the line `key:value` that holds a `:` has the whole
key before its first `:`. -/
theorem takeWhile_truncated (e : Str × Str) (x u : Str) (he : colon ∉ e.1)
    (hx : x ++ u = lineOf e) (hc : colon ∈ x) :
    x.takeWhile (fun c => c ≠ colon) = e.1 := by
  unfold lineOf at hx
  rw [List.append_eq_append_iff] at hx
  rcases hx with ⟨a, ha, _⟩ | ⟨c1, hc1, hrest⟩
  · exact absurd (ha ▸ List.mem_append_left _ hc) he
  · cases c1 with
    | nil =>
      rw [List.append_nil] at hc1
      exact absurd (hc1 ▸ hc) he
    | cons d c2 =>
      rw [List.cons_append, List.cons.injEq] at hrest
      rw [hc1, ← hrest.1]
      exact takeWhile_key e.1 c2 he

/-- The index of the segment opened on the file of a flush that returned
`nil` holds keys of the flushed buffer only, whatever the file accepted. -/
theorem MemTable.segment_index_subset (m : MemTable) (f : Str) (env : WriteEnv) (fs : FS)
    (sst : SSTable)
    (hall : m.All (fun k => colon ∉ k ∧ newline ∉ k) (fun v => newline ∉ v))
    (hf : (m.Flush f env fs).1 = none)
    (hn : NewSSTable f (m.Flush f env fs).2 = Except.ok sst) :
    ∀ k ∈ sst.index, k ∈ m.keys := by
  obtain ⟨c, t, hct, hfs⟩ := m.Flush_written f env fs hf
  rw [hfs] at hn
  obtain ⟨content, hcontent, hi, _⟩ := NewSSTable_index f _ sst hn
  rw [FS.put_same] at hcontent
  have hcc : content = c := (Option.some.inj hcontent).symm
  subst hcc
  have hes := m.sortedEntries_all _ _ hall
  intro k hk
  rw [hi, List.mem_map] at hk
  obtain ⟨x, hx, rfl⟩ := hk
  rw [List.mem_filter] at hx
  obtain ⟨hxl, hxc⟩ := hx
  have hxc2 : colon ∈ x := of_decide_eq_true hxc
  rw [m.serialize_eq] at hct
  obtain ⟨l, hl, u, hu⟩ := rawLines_truncated (m.sortedEntries.map lineOf)
    (by
      intro l hl
      rw [List.mem_map] at hl
      obtain ⟨e, he, rfl⟩ := hl
      exact newline_not_mem_lineOf e (hes e he).1.2 (hes e he).2)
    content t hct x hxl
  rw [List.mem_map] at hl
  obtain ⟨e, he, rfl⟩ := hl
  rw [takeWhile_truncated e x u (hes e he).1.1 hu hxc2]
  have hfst : e.1 ∈ m.sortedEntries.map Prod.fst := List.mem_map_of_mem _ he
  rw [m.sortedEntries_fst, mem_sortStrings] at hfst
  exact hfst

/-! ## Keys that were never written, in any environment -/

/-- One call keeps the keys of the buffer and of every index among the keys
written so far. -/
theorem step_written (st : State) (op : Op) (W : List Str)
    (hs : SetsAll (fun k => colon ∉ k ∧ newline ∉ k) (fun v => newline ∉ v) [op])
    (hf : FlushesSucceed st [op])
    (hall : st.tree.memTable.All (fun k => colon ∉ k ∧ newline ∉ k) (fun v => newline ∉ v))
    (hm : ∀ e ∈ st.tree.memTable.data, e.1 ∈ W)
    (hi : ∀ s ∈ st.tree.sstables, ∀ k ∈ s.index, k ∈ W) :
    (step st op).tree.memTable.All (fun k => colon ∉ k ∧ newline ∉ k) (fun v => newline ∉ v) ∧
    (∀ e ∈ (step st op).tree.memTable.data, e.1 ∈ W ++ setKeys [op]) ∧
    (∀ s ∈ (step st op).tree.sstables, ∀ k ∈ s.index, k ∈ W ++ setKeys [op]) := by
  cases op with
  | set key value =>
    obtain ⟨hk, hv, _⟩ := hs
    refine ⟨st.tree.memTable.All_Set hall key value hk hv, ?_, ?_⟩
    · intro e he
      simp only [step, LSMTree.Set, MemTable.Set, List.mem_cons] at he
      simp only [setKeys, List.mem_append, List.mem_singleton]
      rcases he with rfl | he
      · exact Or.inr rfl
      · exact Or.inl (hm e (List.mem_of_mem_filter he))
    · intro s hs2 k hk2
      exact List.mem_append_left _ (hi s hs2 k hk2)
  | flush env =>
    obtain ⟨hok, _⟩ := hf
    obtain ⟨sst, hmf, hn, hfl⟩ := st.tree.Flush_ok env st.fs hok
    simp only [step, hfl, setKeys, List.append_nil]
    refine ⟨MemTable.All_New _ _, ?_, ?_⟩
    · intro e he2
      simp [NewMemTable] at he2
    · intro s hs2 k hk2
      rw [List.mem_append, List.mem_singleton] at hs2
      rcases hs2 with hs2 | rfl
      · exact hi s hs2 k hk2
      · have hk3 := st.tree.memTable.segment_index_subset _ env st.fs s hall hmf hn k hk2
        unfold MemTable.keys at hk3
        rw [List.mem_dedup, List.mem_map] at hk3
        obtain ⟨e, he2, rfl⟩ := hk3
        exact hm e he2

theorem run_written (ops : List Op) : ∀ (st : State) (W : List Str),
    SetsAll (fun k => colon ∉ k ∧ newline ∉ k) (fun v => newline ∉ v) ops →
    FlushesSucceed st ops →
    st.tree.memTable.All (fun k => colon ∉ k ∧ newline ∉ k) (fun v => newline ∉ v) →
    (∀ e ∈ st.tree.memTable.data, e.1 ∈ W) →
    (∀ s ∈ st.tree.sstables, ∀ k ∈ s.index, k ∈ W) →
    (∀ e ∈ (run st ops).tree.memTable.data, e.1 ∈ W ++ setKeys ops) ∧
    (∀ s ∈ (run st ops).tree.sstables, ∀ k ∈ s.index, k ∈ W ++ setKeys ops) := by
  induction ops with
  | nil =>
    intro st W _ _ _ hm hi
    simp only [setKeys, List.append_nil]
    exact ⟨hm, hi⟩
  | cons op ops ih =>
    intro st W hs hf hall hm hi
    have hs1 : SetsAll (fun k => colon ∉ k ∧ newline ∉ k) (fun v => newline ∉ v) [op] ∧
        SetsAll (fun k => colon ∉ k ∧ newline ∉ k) (fun v => newline ∉ v) ops := by
      cases op with
      | set key value => exact ⟨⟨hs.1, hs.2.1, trivial⟩, hs.2.2⟩
      | flush env => exact ⟨trivial, hs⟩
    have hf1 : FlushesSucceed st [op] ∧ FlushesSucceed (step st op) ops := by
      cases op with
      | set key value => exact ⟨trivial, hf⟩
      | flush env => exact ⟨⟨hf.1, trivial⟩, hf.2⟩
    obtain ⟨h1, h2, h3⟩ := step_written st op W hs1.1 hf1.1 hall hm hi
    have e : W ++ setKeys (op :: ops) = (W ++ setKeys [op]) ++ setKeys ops := by
      cases op <;> simp [setKeys]
    rw [e]
    exact ih (step st op) _ hs1.2 hf1.2 h1 h2 h3

/-! ## The properties that rest on what a flush wrote -/

set_option maxRecDepth 100000

/-- C2: the newer segment does not shadow the older one when the second
flush loses its writes.  `Set("a","1")`, `Flush`, `Set("a","2")`, and a
second `Flush` whose file is created and accepts no byte: both flushes
return `nil`, the key and the values hold no `:`, no line terminator and no
white space, the buffer is empty, and `Get("a")` returns `("1", true)`, the
older value. -/
theorem C2_newer_value_lost :
    Plain [97] ∧ (Plain [49] ∧ Trimmed [49]) ∧ (Plain [50] ∧ Trimmed [50]) ∧
    FlushesSucceed { tree := NewLSMTree, fs := noFiles }
      [Op.set [97] [49], Op.flush okEnv, Op.set [97] [50], Op.flush { createOk := true, room := some 0 }] ∧
    (run { tree := NewLSMTree, fs := noFiles }
      [Op.set [97] [49], Op.flush okEnv, Op.set [97] [50], Op.flush { createOk := true, room := some 0 }]).tree.memTable = NewMemTable ∧
    (run { tree := NewLSMTree, fs := noFiles }
      [Op.set [97] [49], Op.flush okEnv, Op.set [97] [50], Op.flush { createOk := true, room := some 0 }]).tree.Get
      (run { tree := NewLSMTree, fs := noFiles }
      [Op.set [97] [49], Op.flush okEnv, Op.set [97] [50], Op.flush { createOk := true, room := some 0 }]).fs [97] = some ([49], true) :=
  ⟨by decide, by decide, by decide, ⟨by decide, by decide, trivial⟩, by decide, by decide⟩

/-- C3: a flush that returns `nil` is not invisible to reads when the file
did not take everything.  After `Set("a","1")`, `Flush`, `Set("b","2")` on
the empty file system, `Get("b")` returns `("2", true)`; the next `Flush`,
whose file accepts two bytes only, returns `nil`, and `Get("b")` then
returns absent. -/
theorem C3_flush_loses_entry :
    Reachable (run { tree := NewLSMTree, fs := noFiles }
      [Op.set [97] [49], Op.flush okEnv, Op.set [98] [50]]) ∧
    (run { tree := NewLSMTree, fs := noFiles }
      [Op.set [97] [49], Op.flush okEnv, Op.set [98] [50]]).tree.memTable.All Plain (fun v => Plain v ∧ Trimmed v) ∧
    ((run { tree := NewLSMTree, fs := noFiles }
      [Op.set [97] [49], Op.flush okEnv, Op.set [98] [50]]).tree.Flush { createOk := true, room := some 2 }
      (run { tree := NewLSMTree, fs := noFiles }
      [Op.set [97] [49], Op.flush okEnv, Op.set [98] [50]]).fs).1 = none ∧
    (run { tree := NewLSMTree, fs := noFiles }
      [Op.set [97] [49], Op.flush okEnv, Op.set [98] [50]]).tree.Get
      (run { tree := NewLSMTree, fs := noFiles }
      [Op.set [97] [49], Op.flush okEnv, Op.set [98] [50]]).fs [98] = some ([50], true) ∧
    ((run { tree := NewLSMTree, fs := noFiles }
      [Op.set [97] [49], Op.flush okEnv, Op.set [98] [50]]).tree.Flush { createOk := true, room := some 2 }
      (run { tree := NewLSMTree, fs := noFiles }
      [Op.set [97] [49], Op.flush okEnv, Op.set [98] [50]]).fs).2.1.Get
      ((run { tree := NewLSMTree, fs := noFiles }
      [Op.set [97] [49], Op.flush okEnv, Op.set [98] [50]]).tree.Flush { createOk := true, room := some 2 }
        (run { tree := NewLSMTree, fs := noFiles }
      [Op.set [97] [49], Op.flush okEnv, Op.set [98] [50]]).fs).2.2 [98] = some ([], false) :=
  ⟨⟨noFiles, _, rfl⟩, by unfold MemTable.All; decide, by decide, by decide, by decide⟩

/-- C5 as stated fails: after `Set("a:b","c")` and a `Flush` that succeeds,
the key `"a"`, which no `Set` call wrote, is found in the segment and by the
engine, with the value `"b"`. -/
theorem C5_unwritten_key_found :
    FlushesSucceed { tree := NewLSMTree, fs := noFiles }
      [Op.set [97, 58, 98] [99], Op.flush okEnv] ∧
    [97] ∉ setKeys [Op.set [97, 58, 98] [99], Op.flush okEnv] ∧
    (run { tree := NewLSMTree, fs := noFiles }
      [Op.set [97, 58, 98] [99], Op.flush okEnv]).tree.sstables.map
        (fun s => s.Get (run { tree := NewLSMTree, fs := noFiles }
          [Op.set [97, 58, 98] [99], Op.flush okEnv]).fs [97]) = [some ([98], true)] ∧
    (run { tree := NewLSMTree, fs := noFiles }
      [Op.set [97, 58, 98] [99], Op.flush okEnv]).tree.Get
        (run { tree := NewLSMTree, fs := noFiles }
          [Op.set [97, 58, 98] [99], Op.flush okEnv]).fs [97] = some ([98], true) :=
  ⟨⟨by decide, trivial⟩, by decide, by decide, by decide⟩

/-- C5, amended: a key that was never written is absent at every layer,
provided the written keys hold no `:` and no `\n` and the written values
hold no `\n`.  For every sequence of `Set` calls of this kind and `Flush`
calls that return `nil`, in any environment (also one in which the file
took only a part of what was written), run from `NewLSMTree` on any file
system, and every key
`k` that is the key of none of the `Set` calls: `MemTable.Get(k)` on the
buffer, `SSTable.Get(k)` on every segment and `LSMTree.Get(k)` return
`("", false)`. -/
theorem C5_unwritten_key_absent (fs0 : FS) (ops : List Op) (k : Str)
    (hs : SetsAll (fun k => colon ∉ k ∧ newline ∉ k) (fun v => newline ∉ v) ops)
    (hf : FlushesSucceed { tree := NewLSMTree, fs := fs0 } ops)
    (hk : k ∉ setKeys ops) :
    (run { tree := NewLSMTree, fs := fs0 } ops).tree.memTable.Get k = ([], false) ∧
    (∀ s ∈ (run { tree := NewLSMTree, fs := fs0 } ops).tree.sstables,
      s.Get (run { tree := NewLSMTree, fs := fs0 } ops).fs k = some ([], false)) ∧
    (run { tree := NewLSMTree, fs := fs0 } ops).tree.Get
      (run { tree := NewLSMTree, fs := fs0 } ops).fs k = some ([], false) := by
  obtain ⟨hm, hi⟩ := run_written ops { tree := NewLSMTree, fs := fs0 } [] hs hf
    (MemTable.All_New _ _) (fun e he => by simp [NewLSMTree, NewMemTable] at he)
    (fun s hs2 => by simp [NewLSMTree] at hs2)
  rw [List.nil_append] at hm hi
  have h1 : (run { tree := NewLSMTree, fs := fs0 } ops).tree.memTable.Get k = ([], false) :=
    MemTable.Get_of_not_mem _ k (fun e he hek => hk (hek ▸ hm e he))
  have h2 : ∀ s ∈ (run { tree := NewLSMTree, fs := fs0 } ops).tree.sstables,
      s.Get (run { tree := NewLSMTree, fs := fs0 } ops).fs k = some ([], false) :=
    fun s hs2 => SSTable.Get_absent s _ k (fun hin => hk (hi s hs2 k hin))
  refine ⟨h1, h2, ?_⟩
  rw [LSMTree.Get_of_absent _ _ _ (by rw [h1])]
  exact searchSSTables_absent _ _ _ (fun s hs2 => h2 s (List.mem_reverse.mp hs2))

/-- An instance of the amended C5: `Set("a","1")`, a `Flush` whose file
accepts three bytes only and that returns `nil`, `Set("b","2")`, on the empty
file system; the key `"c"` is absent at every layer. -/
theorem C5_unwritten_key_absent_witness :
    SetsAll (fun k => colon ∉ k ∧ newline ∉ k) (fun v => newline ∉ v)
      [Op.set [97] [49], Op.flush { createOk := true, room := some 3 }, Op.set [98] [50]] ∧
    FlushesSucceed { tree := NewLSMTree, fs := noFiles }
      [Op.set [97] [49], Op.flush { createOk := true, room := some 3 }, Op.set [98] [50]] ∧
    [99] ∉ setKeys [Op.set [97] [49], Op.flush { createOk := true, room := some 3 }, Op.set [98] [50]] ∧
    ((run { tree := NewLSMTree, fs := noFiles }
      [Op.set [97] [49], Op.flush { createOk := true, room := some 3 }, Op.set [98] [50]]).tree.memTable.Get [99] =
        ([], false) ∧
    (∀ s ∈ (run { tree := NewLSMTree, fs := noFiles }
      [Op.set [97] [49], Op.flush { createOk := true, room := some 3 }, Op.set [98] [50]]).tree.sstables,
      s.Get (run { tree := NewLSMTree, fs := noFiles }
      [Op.set [97] [49], Op.flush { createOk := true, room := some 3 }, Op.set [98] [50]]).fs [99] =
        some ([], false)) ∧
    (run { tree := NewLSMTree, fs := noFiles }
      [Op.set [97] [49], Op.flush { createOk := true, room := some 3 }, Op.set [98] [50]]).tree.Get
      (run { tree := NewLSMTree, fs := noFiles }
      [Op.set [97] [49], Op.flush { createOk := true, room := some 3 }, Op.set [98] [50]]).fs [99] =
        some ([], false)) :=
  ⟨⟨by decide, by decide, by decide, by decide, trivial⟩,
   ⟨by decide, trivial⟩, by decide,
   C5_unwritten_key_absent noFiles _ [99]
     ⟨by decide, by decide, by decide, by decide, trivial⟩
     ⟨by decide, trivial⟩ (by decide)⟩

/-- C6: a `MemTable.Flush` that returns `nil` may leave a file that is not
the concatenation of the entries.  The buffer holds `("a","1")` and
`("b","2")`, the file is created and accepts five bytes: `Flush` returns
`nil`, the file holds `"a:1\nb"`, and the concatenation of
`key + ":" + value + "\n"` over the keys in ascending order is
`"a:1\nb:2\n"`. -/
theorem C6_flush_truncates_file :
    (((NewMemTable.Set [98] [50]).Set [97] [49]).Flush [102] { createOk := true, room := some 5 } noFiles).1 = none ∧
    (((NewMemTable.Set [98] [50]).Set [97] [49]).Flush [102] { createOk := true, room := some 5 } noFiles).2 [102] =
      some [97, 58, 49, 10, 98] ∧
    sortStrings ((NewMemTable.Set [98] [50]).Set [97] [49]).keys = [[97], [98]] ∧
    (([[97], [98]] : List Str).map
      (fun k => entryLine k (((NewMemTable.Set [98] [50]).Set [97] [49]).Get k).1)).flatten =
      [97, 58, 49, 10, 98, 58, 50, 10] :=
  ⟨by decide, by decide, by decide, by decide⟩

/-- C17: the index of a flushed segment may miss keys of the buffer.  The
buffer holds `("a","1")` and `("b","2")`, the file is created and accepts
four bytes: `Flush("f")` returns `nil`, `NewSSTable("f")` opens the file
`"a:1\n"` and its index is `["a"]`, while the keys of the buffer in
ascending order are `["a", "b"]`. -/
theorem C17_index_misses_key :
    ((NewMemTable.Set [97] [49]).Set [98] [50]).All Plain (fun v => newline ∉ v ∧ carriageReturn ∉ v) ∧
    (((NewMemTable.Set [97] [49]).Set [98] [50]).Flush [102] { createOk := true, room := some 4 } noFiles).1 = none ∧
    (((NewMemTable.Set [97] [49]).Set [98] [50]).Flush [102] { createOk := true, room := some 4 } noFiles).2 [102] =
      some [97, 58, 49, 10] ∧
    NewSSTable [102] (((NewMemTable.Set [97] [49]).Set [98] [50]).Flush [102] { createOk := true, room := some 4 } noFiles).2 =
      Except.ok { filename := [102], index := [[97]], offsets := [0] } ∧
    sortStrings ((NewMemTable.Set [97] [49]).Set [98] [50]).keys = [[97], [98]] :=
  ⟨by unfold MemTable.All; decide, by decide, by decide, rfl, by decide⟩

/-- C18: the lookup of a flushed entry may return absent.  The buffer holds
the entry `("k", " x:y ")`, the file is created and accepts three bytes:
`Flush("f")` returns `nil`, `NewSSTable("f")` opens the file `"k: "` with the
index `["k"]`, and `SSTable.Get("k")` returns `("", false)`, since the line
has no terminator; the part of the value before its first `:`, trimmed, is
`"x"`. -/
theorem C18_lookup_absent_after_flush :
    (NewMemTable.Set [107] [32, 120, 58, 121, 32]).All Plain (fun v => newline ∉ v ∧ carriageReturn ∉ v) ∧
    (NewMemTable.Set [107] [32, 120, 58, 121, 32]).Get [107] = ([32, 120, 58, 121, 32], true) ∧
    ((NewMemTable.Set [107] [32, 120, 58, 121, 32]).Flush [102] { createOk := true, room := some 3 } noFiles).1 = none ∧
    ((NewMemTable.Set [107] [32, 120, 58, 121, 32]).Flush [102] { createOk := true, room := some 3 } noFiles).2 [102] =
      some [107, 58, 32] ∧
    NewSSTable [102] ((NewMemTable.Set [107] [32, 120, 58, 121, 32]).Flush [102] { createOk := true, room := some 3 } noFiles).2 =
      Except.ok { filename := [102], index := [[107]], offsets := [0] } ∧
    SSTable.Get { filename := [102], index := [[107]], offsets := [0] }
      ((NewMemTable.Set [107] [32, 120, 58, 121, 32]).Flush [102] { createOk := true, room := some 3 } noFiles).2 [107] =
      some ([], false) ∧
    TrimSpace (([32, 120, 58, 121, 32] : Str).takeWhile (fun c => c ≠ colon)) = [120] :=
  ⟨by unfold MemTable.All; decide, by decide, by decide, by decide, rfl, by decide, by decide⟩

end LSM
